import Mathlib

/-
A verification model of the slate editor core.

Part 1 models the value queries of
`packages/slate/src/classes/queries/value.ts` (the `getActiveMarks` and
`positions` generators) over a two-level document of blocks and text
leaves.  Part 2 models the legacy `Value` class (split/merge/insert/
remove/move/set operations together with their selection-repair rules).

Definitions are translated from the JavaScript sources.  Helper queries
whose implementation lives outside the given source files (`Node.texts`,
`Mark.exists`, `getClosestBlock`, `getNextText`, key creation, ...) are
modelled from the specification and carry a doc comment saying so.
-/

namespace Slate

/-! ## Definitions -/

/-- A formatting mark, identified by its key (marks are opaque key-keyed
property bags; only identity matters here). -/
abbrev Mk := Nat

/-- Text leaf of the 0.50-style editor value: a string plus its marks. -/
structure NTx where
  text : List Char
  marks : List Mk
deriving DecidableEq, Repr

/-- Block element of the 0.50-style editor value: an ordered sequence of
text leaves, possibly declared void. -/
structure NBlk where
  children : List NTx
  void : Bool
deriving DecidableEq, Repr

/-- The document of the 0.50-style value: an ordered sequence of blocks. -/
abbrev NDoc := List NBlk

/-- A 0.50-style point: `{ path, offset }`.  Offsets are integers, as in
the JavaScript source (intermediate arithmetic can go negative). -/
structure NPoint where
  path : List Nat
  offset : Int
deriving DecidableEq, Repr

/-- A 0.50-style range: anchor and focus points plus the optional explicit
`marks` override carried by a selection. -/
structure NRange where
  anchor : NPoint
  focus : NPoint
  marks : Option (List Mk)
deriving DecidableEq, Repr

/-- A 0.50-style editor value: document plus optional selection
(`none` is an unset selection). -/
structure NValue where
  doc : NDoc
  selection : Option NRange
deriving DecidableEq, Repr

/-- Document order on paths, lexicographic with a strict prefix coming
first (an ancestor precedes its descendants). -/
def pathLt : List Nat → List Nat → Bool
  | [], [] => false
  | [], _ :: _ => true
  | _ :: _, [] => false
  | a :: as, b :: bs => if a < b then true else if a = b then pathLt as bs else false

/-- Text entries of one block in order, paired with their paths `[i, j]`. -/
def txEntriesN (i : Nat) (j : Nat) : List NTx → List (NTx × List Nat)
  | [] => []
  | t :: ts => (t, [i, j]) :: txEntriesN i (j + 1) ts

/-- Modelled from the spec: `Node.texts` produces the `[node, path]` text
entries of the document in document order. -/
def docEntriesN (i : Nat) : NDoc → List (NTx × List Nat)
  | [] => []
  | b :: bs => txEntriesN i 0 b.children ++ docEntriesN (i + 1) bs

/-- Point order: same-path points compare by offset, otherwise by path. -/
def npLe (p q : NPoint) : Bool :=
  if p.path = q.path then p.offset ≤ q.offset else pathLt p.path q.path

/-- The `start`/`end` pair of a range: the anchor/focus points sorted into
document order. -/
def rangeEdges (r : NRange) : NPoint × NPoint :=
  if npLe r.anchor r.focus then (r.anchor, r.focus) else (r.focus, r.anchor)

/-- Modelled from the spec: `Node.texts(value, { range })` scopes the text
entry sequence to the sub-range, yielding the entries from the start
point's node through the end point's node. -/
def textsInRange (d : NDoc) (r : NRange) : List (NTx × List Nat) :=
  let s := (rangeEdges r).1
  let e := (rangeEdges r).2
  (docEntriesN 0 d).filter (fun en => !pathLt en.2 s.path && !pathLt e.path en.2)

/-- Modelled from the spec: `getClosestBlock(path)` returns the nearest
block ancestor entry; in this two-level model that is the containing
top-level block. -/
def closestBlockN (d : NDoc) (p : List Nat) : Option (NBlk × List Nat) :=
  match p with
  | i :: _ => (d[i]?).map (fun b => (b, [i]))
  | [] => none

/-- Modelled from the spec: `getPreviousText(path)` returns the last text
entry strictly before `path` in document order. -/
def prevTextN (d : NDoc) (p : List Nat) : Option (NTx × List Nat) :=
  ((docEntriesN 0 d).reverse).find? (fun e => pathLt e.2 p)

/-- The text leaf at a path (`Node.leaf`). -/
def leafAtN (d : NDoc) (p : List Nat) : Option NTx :=
  match p with
  | [i, j] => (d[i]?).bind (fun b => b.children[j]?)
  | _ => none

/-- Modelled from the spec: `Path.isAncestor(p, q)` holds when `p` is a
strict prefix of `q`. -/
def isAncestorPath (p q : List Nat) : Bool :=
  p.isPrefixOf q && !(p == q)

/-- Modelled from the spec: `getRange(path)` is the range spanning the
whole node at `path`. -/
def nodeRangeN (d : NDoc) (p : List Nat) : NRange :=
  match leafAtN d p with
  | some t => ⟨⟨p, 0⟩, ⟨p, (t.text.length : Int)⟩, none⟩
  | none => ⟨⟨p, 0⟩, ⟨p, 0⟩, none⟩

/-- Modelled from the spec: `Mark.exists(mark, marks)` tests membership of
a mark in a mark list. -/
def markExists (m : Mk) (ms : List Mk) : Bool :=
  ms.contains m

/-- The accumulation loop of `getActiveMarks`, one step per text node after
the first: intersect (`union = false`, with the early exit once the running
result is empty), or the `union` branch, which as written tests each
candidate mark against the node's own `marks` list before pushing. -/
def gamFold (union : Bool) : List Mk → List (NTx × List Nat) → List Mk
  | result, [] => result
  | result, (node, _) :: rest =>
    if !union && result.isEmpty then result
    else
      let result' :=
        if union then result ++ node.marks.filter (fun m => !markExists m node.marks)
        else result.filter (fun m => markExists m node.marks)
      gamFold union result' rest

/-- Write a text node's marks (used to reflect the in-place array updates
of `getActiveMarks` back into the tree). -/
def setMarksAtN (d : NDoc) (p : List Nat) (ms : List Mk) : NDoc :=
  match p with
  | [i, j] =>
    match d[i]? with
    | some b =>
      match b.children[j]? with
      | some t => d.set i { b with children := b.children.set j { t with marks := ms } }
      | none => d
    | none => d
  | _ => d

/-- `getActiveMarks` from `value.ts`.  Returns the computed mark list
together with the document after the call: the running `result` is the
first visited node's `marks` array itself, so the in-place `splice`/`push`
updates of the loop write through to that node. -/
def getActiveMarks (v : NValue) (union : Bool) : List Mk × NDoc :=
  match v.selection with
  | none => ([], v.doc)
  | some sel =>
    match sel.marks with
    | some ms => (ms, v.doc)
    | none =>
      let range :=
        if sel.anchor = sel.focus ∧ sel.anchor.offset = 0 then
          match closestBlockN v.doc sel.anchor.path, prevTextN v.doc sel.anchor.path with
          | some bp, some pv =>
            if isAncestorPath bp.2 pv.2 then nodeRangeN v.doc pv.2 else sel
          | _, _ => sel
        else sel
      match textsInRange v.doc range with
      | [] => ([], v.doc)
      | (first, fp) :: rest =>
        let result := gamFold union first.marks rest
        (result, setMarksAtN v.doc fp result)

/-- The two-text document of the mark-law scenario: mark sets `{1, 2}`
and `{2, 3}` (for `{A, B}` and `{B, C}`). -/
def gamDoc : NDoc :=
  [⟨[⟨['a'], [1, 2]⟩, ⟨['b'], [2, 3]⟩], false⟩]

/-- A value whose selection spans exactly the two text nodes of `gamDoc`,
with no explicit `selection.marks` override. -/
def gamValue : NValue :=
  ⟨gamDoc, some ⟨⟨[0, 0], 0⟩, ⟨[0, 1], 1⟩, none⟩⟩

/-- The travel granularity of `positions`. -/
inductive TravelUnit where
  | offsetU
  | character
  | word
  | line
deriving DecidableEq, Repr

/-- JavaScript `s.slice(i)` on a character list: a negative start counts
from the end, and out-of-range starts clamp. -/
def jsSliceFrom (s : List Char) (i : Int) : List Char :=
  s.drop (if i < 0 then ((s.length : Int) + i).toNat else i.toNat)

/-- JavaScript `s.slice(0, j)` on a character list. -/
def jsSliceTo (s : List Char) (j : Int) : List Char :=
  s.take (if j < 0 then ((s.length : Int) + j).toNat else j.toNat)

/-- Concatenated text of a block (`Node.text` on the enclosing block). -/
def blockTextN (b : NBlk) : List Char :=
  (b.children.map NTx.text).flatten

/-- Concatenated text of the whole document (`Node.text` on the value). -/
def docTextN (d : NDoc) : List Char :=
  (d.map blockTextN).flatten

/-- Total text length of a list of text leaves. -/
def txLenSum (ts : List NTx) : Nat :=
  (ts.map (fun t => t.text.length)).sum

/-- Modelled from the spec: `Node.offset(root, relativePath)` counts the
characters preceding `relativePath` within a block root. -/
def offsetInBlock (b : NBlk) : List Nat → Nat
  | [] => 0
  | j :: _ => txLenSum (b.children.take j)

/-- Modelled from the spec: `Node.offset` against the document root. -/
def offsetInDoc (d : NDoc) : List Nat → Nat
  | [] => 0
  | i :: rest =>
    ((d.take i).map (fun b => txLenSum b.children)).sum +
      (match d[i]? with
       | some b => offsetInBlock b rest
       | none => 0)

/-- Modelled from the spec: `getFurthestVoid(path)` returns the outermost
void ancestor entry (inclusive); in this two-level model, the containing
block when it is void. -/
def furthestVoidN (d : NDoc) (p : List Nat) : Option (List Nat) :=
  match p with
  | i :: _ =>
    match d[i]? with
    | some b => if b.void then some [i] else none
    | none => none
  | [] => none

/-- The text entries lying inside the subtree at `p`. -/
def entriesUnderN (d : NDoc) (p : List Nat) : List (NTx × List Nat) :=
  (docEntriesN 0 d).filter (fun e => p.isPrefixOf e.2)

/-- Modelled from the spec: `isAtEndOfPath(point, path)` holds when the
point sits at the very end of the last text of the node at `path`. -/
def isAtEndOfPathN (d : NDoc) (pt : NPoint) (p : List Nat) : Bool :=
  match (entriesUnderN d p).getLast? with
  | some (tn, tp) => pt.path == tp && pt.offset == (tn.text.length : Int)
  | none => false

/-- Modelled from the spec: `isAtStartOfPath(point, path)` holds when the
point sits at offset 0 of the first text of the node at `path`. -/
def isAtStartOfPathN (d : NDoc) (pt : NPoint) (p : List Nat) : Bool :=
  match (entriesUnderN d p).head? with
  | some (_, tp) => pt.path == tp && pt.offset == (0 : Int)
  | none => false

/-- Modelled from the spec: `getNextText(path)` returns the first text
entry strictly after the whole node at `path` (its own descendants are
not "next"). -/
def nextTextOutsideN (d : NDoc) (p : List Nat) : Option (NTx × List Nat) :=
  (docEntriesN 0 d).find? (fun e => pathLt p e.2 && !p.isPrefixOf e.2)

/-- Modelled from the spec: `this.texts({ path, reverse })` iterates the
document's text entries strictly beyond `path` in the travel direction. -/
def textsFromN (d : NDoc) (p : List Nat) (rev : Bool) : List (NTx × List Nat) :=
  if rev then ((docEntriesN 0 d).filter (fun e => pathLt e.2 p)).reverse
  else (docEntriesN 0 d).filter (fun e => pathLt p e.2)

/-- Modelled from the spec: `String.getCharacterDistance` is the length of
the first character cluster (1 for the plain one-codepoint characters used
here, 0 on an empty string). -/
def getCharacterDistance (s : List Char) : Nat :=
  if s.isEmpty then 0 else 1

/-- Modelled from the spec: `String.getWordDistance` is the length of the
first word including its trailing whitespace run. -/
def getWordDistance (s : List Char) : Nat :=
  let w := s.takeWhile (fun c => c ≠ ' ')
  let r := (s.drop w.length).takeWhile (fun c => c = ' ')
  w.length + r.length

/-- The trailing loop of the `positions` body over
`this.texts({ path, reverse })`: every entry whose length reaches the
remaining distance reassigns and yields the point — the source neither
breaks out of this loop nor advances the travelled amount `t`. -/
def posWalk (rev : Bool) (dd t : Int) :
    List (NTx × List Nat) → NPoint → List NPoint → NPoint × List NPoint
  | [], pt, acc => (pt, acc)
  | (tn, tp) :: rest, pt, acc =>
    if dd ≤ t + (tn.text.length : Int) then
      let q : NPoint := ⟨tp, if rev then (tn.text.length : Int) - (dd - t) else dd - t⟩
      posWalk rev dd t rest q (acc ++ [q])
    else posWalk rev dd t rest pt acc

/-- The distance computation and the two yield sites of the `positions`
body.  `node` is the leaf at the path destructured at the top of the body,
`rootText`/`relOffset` come from the enclosing block, `offset` is the
stale offset from the top of the body, and `pt` is the current (possibly
already reassigned) point. -/
def posCore (d : NDoc) (u : TravelUnit) (rev : Bool) (node : NTx)
    (rootText : List Char) (relOffset : Nat) (offset : Int) (pt : NPoint)
    (acc : List NPoint) (path : List Nat) : Option (NPoint × List NPoint) :=
  let rootOffset : Int := (relOffset : Int) + offset
  let remaining : List Char :=
    if rev then (jsSliceTo rootText rootOffset).reverse
    else jsSliceFrom rootText rootOffset
  let dd : Int :=
    match u with
    | .offsetU => 1
    | .character => (getCharacterDistance remaining : Int)
    | .word => (getWordDistance remaining : Int)
    | .line => (remaining.length : Int)
  let newOffset : Int := if rev then offset - dd else offset + dd
  let step1 : NPoint × List NPoint :=
    if (!rev && newOffset ≤ (node.text.length : Int)) || (rev && 0 ≤ newOffset) then
      let q : NPoint := ⟨pt.path, newOffset⟩
      (q, acc ++ [q])
    else (pt, acc)
  let t : Int := if rev then offset else (node.text.length : Int) - offset
  some (posWalk rev dd t (textsFromN d path rev) step1.1 step1.2)

/-- The remainder of the `positions` body after the void/block skip: the
source reads `path`/`offset` destructured at the top of the body (stale
even when the skip branch reassigned `point`). -/
def posRest (d : NDoc) (u : TravelUnit) (rev : Bool) (path : List Nat)
    (offset : Int) (pt : NPoint) (acc : List NPoint) :
    Option (NPoint × List NPoint) :=
  match leafAtN d path with
  | none => none
  | some node =>
    match closestBlockN d path with
    | some bp =>
      if bp.2.isPrefixOf path then
        posCore d u rev node (blockTextN bp.1)
          (offsetInBlock bp.1 (path.drop bp.2.length)) offset pt acc path
      else none
    | none =>
      posCore d u rev node (docTextN d) (offsetInDoc d path) offset pt acc path

/-- One iteration of the `while (true)` loop body of `positions`:
`none` when the body hits its `break` (or a lookup the source would throw
on), otherwise the updated point together with the points yielded during
this iteration, in order. -/
def posBody (d : NDoc) (u : TravelUnit) (rev : Bool) (pt0 : NPoint) :
    Option (NPoint × List NPoint) :=
  let path := pt0.path
  let offset := pt0.offset
  let skipPath : Option (List Nat) :=
    match furthestVoidN d path with
    | some vp => some vp
    | none =>
      match closestBlockN d path with
      | some bp =>
        if (!rev && isAtEndOfPathN d pt0 bp.2) || (rev && isAtStartOfPathN d pt0 bp.2) then
          some bp.2
        else none
      | none => none
  match skipPath with
  | some sp =>
    match (if rev then prevTextN d sp else nextTextOutsideN d sp) with
    | none => none
    | some (tn, tp) =>
      let pt1 : NPoint := ⟨tp, if rev then (tn.text.length : Int) else 0⟩
      posRest d u rev path offset pt1 [pt1]
  | none => posRest d u rev path offset pt0 []

/-- Run the `positions` loop for at most `fuel` iterations, collecting the
yielded points; the boolean reports whether the loop exited via `break`
within the allotted fuel. -/
def positionsGo : Nat → NDoc → TravelUnit → Bool → NPoint → List NPoint × Bool
  | 0, _, _, _, _ => ([], false)
  | fuel + 1, d, u, rev, pt =>
    match posBody d u rev pt with
    | none => ([], true)
    | some (pt', ys) =>
      let rec' := positionsGo fuel d u rev pt'
      (ys ++ rec'.1, rec'.2)

/-- The `positions` generator: when no starting point is supplied, it
starts from the first (or, reversed, last) text entry of the document. -/
def positionsList (fuel : Nat) (d : NDoc) (u : TravelUnit) (rev : Bool)
    (pt? : Option NPoint) : List NPoint × Bool :=
  match pt? with
  | some pt => positionsGo fuel d u rev pt
  | none =>
    match (if rev then (docEntriesN 0 d).getLast? else (docEntriesN 0 d).head?) with
    | none => ([], false)
    | some (tn, tp) =>
      positionsGo fuel d u rev ⟨tp, if rev then (tn.text.length : Int) else 0⟩

/-- The void-scenario document: `[Text "a", Void("x"), Text "b"]` as three
top-level nodes, the middle one a void element with one internal text. -/
def voidDoc : NDoc :=
  [⟨[⟨['a'], []⟩], false⟩, ⟨[⟨['x'], []⟩], true⟩, ⟨[⟨['b'], []⟩], false⟩]

/-- A single block holding the three one-character texts "a", "b", "c". -/
def lineDoc : NDoc :=
  [⟨[⟨['a'], []⟩, ⟨['b'], []⟩, ⟨['c'], []⟩], false⟩]

/-- Text leaf of the legacy model: stable key, text and properties. -/
structure Tx where
  key : Nat
  text : List Char
  props : Nat
deriving DecidableEq, Repr

/-- Block node of the legacy model: stable key, properties, text children. -/
structure Blk where
  key : Nat
  props : Nat
  children : List Tx
deriving DecidableEq, Repr

/-- The legacy document: an ordered sequence of blocks. -/
abbrev ODoc := List Blk

/-- A legacy point: durable `key`, cached `path` (`none` after
invalidation) and `offset`. -/
structure OPt where
  key : Nat
  path : Option (List Nat)
  offset : Nat
deriving DecidableEq, Repr

/-- A legacy range: an anchor/focus pair of points. -/
structure ORg where
  anchor : OPt
  focus : OPt
deriving DecidableEq, Repr

/-- A legacy value: document, selection (`none` is an unset selection) and
the document's annotation ranges (`none` is an unset one). -/
structure OValue where
  doc : ODoc
  selection : Option ORg
  anns : List (Option ORg)
deriving DecidableEq, Repr

/-- A node of the legacy document: block or text. -/
inductive ONode where
  | block (b : Blk)
  | text (t : Tx)
deriving DecidableEq, Repr

/-- The key of a legacy node. -/
def ONode.nkey : ONode → Nat
  | .block b => b.key
  | .text t => t.key

/-- The concatenated text length of a legacy node (every legacy node has a
computed `text`; for a block it concatenates the children). -/
def ONode.ntextLen : ONode → Nat
  | .block b => ((b.children.map (fun t => t.text.length)).sum)
  | .text t => t.text.length

/-- `document.getNode`/`assertNode` by path. -/
def getNodeO (d : ODoc) : List Nat → Option ONode
  | [i] => (d[i]?).map ONode.block
  | [i, j] => ((d[i]?).bind (fun b => b.children[j]?)).map ONode.text
  | _ => none

/-- Text entries of one legacy block, paired with their paths. -/
def txEntriesO (i : Nat) (j : Nat) : List Tx → List (Tx × List Nat)
  | [] => []
  | t :: ts => (t, [i, j]) :: txEntriesO i (j + 1) ts

/-- All text entries of a legacy document in document order. -/
def docEntriesO (i : Nat) : ODoc → List (Tx × List Nat)
  | [] => []
  | b :: bs => txEntriesO i 0 b.children ++ docEntriesO (i + 1) bs

/-- All node keys of a legacy document (each block's key followed by its
children's keys, in document order). -/
def allKeys (d : ODoc) : List Nat :=
  d.flatMap (fun b => b.key :: b.children.map Tx.key)

/-- The keys of the text leaves of a legacy document. -/
def textKeys (d : ODoc) : List Nat :=
  d.flatMap (fun b => b.children.map Tx.key)

/-- Scan a block's children for the index of the text carrying `k`. -/
def txFindIdx (k : Nat) : Nat → List Tx → Option Nat
  | _, [] => none
  | j, t :: ts => if t.key = k then some j else txFindIdx k (j + 1) ts

/-- Key resolution: find the path of the first node carrying `k`, in
document order (modelled from the spec: "key → path lookup via a
full-tree scan"). -/
def findKeyGo (k : Nat) : Nat → List Blk → Option (List Nat)
  | _, [] => none
  | i, b :: bs =>
    if b.key = k then some [i]
    else
      match txFindIdx k 0 b.children with
      | some j => some [i, j]
      | none => findKeyGo k (i + 1) bs

/-- Resolve a key to its current path. -/
def findKeyPath (d : ODoc) (k : Nat) : Option (List Nat) :=
  findKeyGo k 0 d

/-- Modelled from the spec: `createSelection`/`createAnnotation`
re-resolve each point's cached path from its durable key against the
current document. -/
def resolvePt (d : ODoc) (p : OPt) : OPt :=
  { p with path := findKeyPath d p.key }

/-- Re-resolution of a whole range against the document. -/
def createRange (d : ODoc) (r : ORg) : ORg :=
  ⟨resolvePt d r.anchor, resolvePt d r.focus⟩

/-- Apply a function to both points of a range (`range.updatePoints`). -/
def updatePts (f : OPt → OPt) (r : ORg) : ORg :=
  ⟨f r.anchor, f r.focus⟩

/-- Invalidate a point's cached path (`point.setPath(null)`). -/
def setPathNull (p : OPt) : OPt :=
  { p with path := none }

/-- `value.mapRanges(iterator)`: apply the iterator to the selection (when
set) and to every annotation, re-resolving every changed range against the
current document.  The iterator returns `none` for a lookup the source
would throw on (failing the whole operation), `some none` for
`range.unset()`, and `some (some r)` for an updated range. -/
def mapRangesE (v : OValue) (f : ORg → Option (Option ORg)) : Option OValue := do
  let sel ← match v.selection with
    | none => some none
    | some r => (f r).map (fun o => o.map (fun r' =>
        if r' = r then r' else createRange v.doc r'))
  let anns ← v.anns.mapM (fun a =>
    match a with
    | none => some none
    | some r => (f r).map (fun o => o.map (fun r' =>
        if r' = r then r' else createRange v.doc r')))
  some { v with selection := sel, anns := anns }

/-- Modelled from the spec: keys are opaque unique identifiers generated
at node creation (key generation lives outside the given sources); a fresh
key is one strictly larger than every key in the document. -/
def freshKey (d : ODoc) : Nat :=
  (allKeys d).foldr max 0 + 1

/-- `document.getNextText(key)`: resolve the key and return the first text
entry strictly after the whole node at that path (modelled from the spec:
the next text node after the given node). -/
def getNextTextByKey (d : ODoc) (k : Nat) : Option (Tx × List Nat) := do
  let p ← findKeyPath d k
  (docEntriesO 0 d).find? (fun e => pathLt p e.2 && !p.isPrefixOf e.2)

/-- `document.getPreviousText(key)`: resolve the key and return the last
text entry strictly before that path in document order. -/
def getPrevTextByKey (d : ODoc) (k : Nat) : Option (Tx × List Nat) := do
  let p ← findKeyPath d k
  ((docEntriesO 0 d).reverse).find? (fun e => pathLt e.2 p)

/-- Whether the subtree rooted at a node contains the key
(`node.hasNode(key)`). -/
def hasNodeKey (n : ONode) (k : Nat) : Bool :=
  match n with
  | .text t => t.key == k
  | .block b => b.key == k || b.children.any (fun t => t.key == k)

/-- Modelled from the spec: start/end of a legacy range are the
anchor/focus pair sorted into document order; the direction comes from the
resolved paths (offsets break ties on a shared node). -/
def rangeBwd (r : ORg) : Bool :=
  match r.anchor.path, r.focus.path with
  | some pa, some pf =>
    if pa = pf then decide (r.focus.offset < r.anchor.offset) else pathLt pf pa
  | _, _ => false

/-- Modelled from the spec: `document.splitNode(path, position, props)`
replaces the node at `path` by two siblings with its content partitioned
at `position`; the successor receives the fresh key `fk` and the merged
`props`. -/
def docSplitNode (d : ODoc) (p : List Nat) (pos : Nat) (fk : Nat)
    (props : Option Nat) : Option ODoc :=
  match p with
  | [i] => do
    let b ← d[i]?
    some (d.take i ++
      [⟨b.key, b.props, b.children.take pos⟩,
       ⟨fk, props.getD b.props, b.children.drop pos⟩] ++
      d.drop (i + 1))
  | [i, j] => do
    let b ← d[i]?
    let t ← b.children[j]?
    some (d.take i ++
      [{ b with children :=
          b.children.take j ++
            [⟨t.key, t.text.take pos, t.props⟩,
             ⟨fk, t.text.drop pos, props.getD t.props⟩] ++
            b.children.drop (j + 1) }] ++
      d.drop (i + 1))
  | _ => none

/-- `value.splitNode(path, position, properties)` from the legacy `Value`:
split the document node, then repair every range — a start/end point
sitting on the split node at or after the position moves to the successor
text with its offset re-based, and all cached paths are invalidated. -/
def valueSplitNode (v : OValue) (path : List Nat) (pos : Nat)
    (props : Option Nat) : Option OValue := do
  let node ← getNodeO v.doc path
  let newDoc ← docSplitNode v.doc path pos (freshKey v.doc) props
  let v1 := { v with doc := newDoc }
  mapRangesE v1 (fun range =>
    let next := getNextTextByKey newDoc node.nkey
    let bwd := rangeBwd range
    let s := if bwd then range.focus else range.anchor
    let e := if bwd then range.anchor else range.focus
    let c1 := node.nkey = s.key ∧ pos ≤ s.offset
    let c2 := node.nkey = e.key ∧ pos ≤ e.offset
    match next with
    | none =>
      if c1 ∨ c2 then none else some (some (updatePts setPathNull range))
    | some nx =>
      let r1 := if c1 then
          (if bwd then { range with focus := ⟨nx.1.key, none, s.offset - pos⟩ }
           else { range with anchor := ⟨nx.1.key, none, s.offset - pos⟩ })
        else range
      let r2 := if c2 then
          (if bwd then { r1 with anchor := ⟨nx.1.key, none, e.offset - pos⟩ }
           else { r1 with focus := ⟨nx.1.key, none, e.offset - pos⟩ })
        else r1
      some (some (updatePts setPathNull r2)))

/-- `PathUtils.decrement` on the last index; a zero last index produces an
index the subsequent `getNode` lookup fails on, so it is folded into
`none` here. -/
def decrementP : List Nat → Option (List Nat)
  | [i] => if i = 0 then none else some [i - 1]
  | [i, j] => if j = 0 then none else some [i, j - 1]
  | _ => none

/-- Modelled from the spec: `document.mergeNode(path)` merges the node at
`path` into its immediate previous sibling and removes it. -/
def docMergeNode (d : ODoc) (p : List Nat) : Option ODoc :=
  match p with
  | [i] =>
    if i = 0 then none
    else do
      let b1 ← d[i - 1]?
      let b2 ← d[i]?
      some (d.take (i - 1) ++ [⟨b1.key, b1.props, b1.children ++ b2.children⟩] ++
        d.drop (i + 1))
  | [i, j] =>
    if j = 0 then none
    else do
      let b ← d[i]?
      let t1 ← b.children[j - 1]?
      let t2 ← b.children[j]?
      some (d.take i ++
        [{ b with children :=
            b.children.take (j - 1) ++ [⟨t1.key, t1.text ++ t2.text, t1.props⟩] ++
              b.children.drop (j + 1) }] ++
        d.drop (i + 1))
  | _ => none

/-- `value.mergeNode(path)` from the legacy `Value`: merge the node into
its predecessor; when the merged node was a text, points on it move to the
predecessor's key with the predecessor's prior text length added to the
offset; all cached paths are invalidated. -/
def valueMergeNode (v : OValue) (path : List Nat) : Option OValue := do
  let newDoc ← docMergeNode v.doc path
  let withPath ← decrementP path
  let one ← getNodeO v.doc withPath
  let two ← getNodeO v.doc path
  let v1 := { v with doc := newDoc }
  mapRangesE v1 (fun range =>
    let r1 :=
      match two with
      | .text t2 =>
        let m := one.ntextLen
        let ra := if range.anchor.key = t2.key then
            { range with anchor := ⟨one.nkey, none, m + range.anchor.offset⟩ }
          else range
        if ra.focus.key = t2.key then
          { ra with focus := ⟨one.nkey, none, m + ra.focus.offset⟩ }
        else ra
      | .block _ => range
    some (some (updatePts setPathNull r1)))

/-- Modelled from the spec: `document.removeNode(path)` removes the
subtree at `path` from its parent's children. -/
def docRemoveNode (d : ODoc) (p : List Nat) : Option ODoc :=
  match p with
  | [i] => do
    let _ ← d[i]?
    some (d.take i ++ d.drop (i + 1))
  | [i, j] => do
    let b ← d[i]?
    let _ ← b.children[j]?
    some (d.take i ++
      [{ b with children := b.children.take j ++ b.children.drop (j + 1) }] ++
      d.drop (i + 1))
  | _ => none

/-- The key of the first text inside a node (`node.getFirstText() || node`:
the node's own key when it has no text). -/
def firstTextKey (n : ONode) : Nat :=
  match n with
  | .text t => t.key
  | .block b =>
    match b.children.head? with
    | some t => t.key
    | none => b.key

/-- The key of the last text inside a node (`node.getLastText() || node`). -/
def lastTextKey (n : ONode) : Nat :=
  match n with
  | .text t => t.key
  | .block b =>
    match b.children.getLast? with
    | some t => t.key
    | none => b.key

/-- `value.removeNode(path)` from the legacy `Value`: remove the subtree;
a point whose key lies inside it moves to the end of the previous text if
one exists, else to offset 0 of the next text, else the range is unset;
all cached paths are invalidated. -/
def valueRemoveNode (v : OValue) (path : List Nat) : Option OValue := do
  let node ← getNodeO v.doc path
  let prev := getPrevTextByKey v.doc (firstTextKey node)
  let next := getNextTextByKey v.doc (lastTextKey node)
  let newDoc ← docRemoveNode v.doc path
  let v1 := { v with doc := newDoc }
  mapRangesE v1 (fun range =>
    let reloc : Option (Nat × Nat) :=
      match prev with
      | some pv => some (pv.1.key, pv.1.text.length)
      | none =>
        match next with
        | some nx => some (nx.1.key, 0)
        | none => none
    let step1 : Option ORg :=
      if hasNodeKey node range.anchor.key then
        match reloc with
        | some ko => some { range with anchor := ⟨ko.1, none, ko.2⟩ }
        | none => none
      else some range
    match step1 with
    | none => some none
    | some ra =>
      if hasNodeKey node ra.focus.key then
        match reloc with
        | some ko => some (some (updatePts setPathNull { ra with focus := ⟨ko.1, none, ko.2⟩ }))
        | none => some none
      else some (some (updatePts setPathNull ra)))

/-- Content of a node to insert.  Keys are assigned fresh at insertion
(modelled from the spec: keys are opaque unique identifiers generated at
node creation, which lives outside the given sources). -/
inductive NodeSpec where
  | textS (text : List Char) (props : Nat)
  | blockS (props : Nat) (children : List (List Char × Nat))
deriving DecidableEq, Repr

/-- Materialize the children of a block spec with consecutive fresh keys. -/
def matKids (base : Nat) : List (List Char × Nat) → List Tx
  | [] => []
  | c :: rest => ⟨base, c.1, c.2⟩ :: matKids (base + 1) rest

/-- Materialize a node spec with fresh keys starting at `base`. -/
def materialize (base : Nat) : NodeSpec → ONode
  | .textS s pr => .text ⟨base, s, pr⟩
  | .blockS pr cs => .block ⟨base, pr, matKids (base + 1) cs⟩

/-- Modelled from the spec: `document.insertNode(path, node)` inserts the
node at `path`, shifting the later siblings (an out-of-range index
appends, per the spec's clamping note). -/
def docInsertNode (d : ODoc) (p : List Nat) (n : ONode) : Option ODoc :=
  match p, n with
  | [i], .block b => some (d.take i ++ [b] ++ d.drop i)
  | [i, j], .text t => do
    let b ← d[i]?
    some (d.take i ++
      [{ b with children := b.children.take j ++ [t] ++ b.children.drop j }] ++
      d.drop (i + 1))
  | _, _ => none

/-- `value.insertNode(path, node)` from the legacy `Value`: insert the
node and invalidate every cached path so points re-resolve by key. -/
def valueInsertNode (v : OValue) (path : List Nat) (spec : NodeSpec) :
    Option OValue := do
  let newDoc ← docInsertNode v.doc path (materialize (freshKey v.doc) spec)
  let v1 := { v with doc := newDoc }
  mapRangesE v1 (fun range => some (some (updatePts setPathNull range)))

/-- Modelled from the spec: `document.moveNode(path, newPath, newIndex)`
relocates the subtree at `path` under the parent at `newPath` at child
index `newIndex` (clamped to append), resolved after the removal. -/
def docMoveNode (d : ODoc) (path newPath : List Nat) (idx : Nat) :
    Option ODoc := do
  let node ← getNodeO d path
  let d1 ← docRemoveNode d path
  match node, newPath with
  | .block b, [] => some (d1.take idx ++ [b] ++ d1.drop idx)
  | .text t, [i] => do
    let b ← d1[i]?
    some (d1.take i ++
      [{ b with children := b.children.take idx ++ [t] ++ b.children.drop idx }] ++
      d1.drop (i + 1))
  | _, _ => none

/-- `value.moveNode(path, newPath, newIndex)` from the legacy `Value`:
a no-op when the paths are equal, otherwise relocate the subtree and
invalidate every cached path. -/
def valueMoveNode (v : OValue) (path newPath : List Nat) (idx : Nat) :
    Option OValue :=
  if path = newPath then some v
  else do
    let newDoc ← docMoveNode v.doc path newPath idx
    let v1 := { v with doc := newDoc }
    mapRangesE v1 (fun range => some (some (updatePts setPathNull range)))

/-- Modelled from the spec: `document.setNode(path, properties)` shallowly
merges the properties onto the node; keys and structure are untouched. -/
def docSetNode (d : ODoc) (p : List Nat) (pr : Nat) : Option ODoc :=
  match p with
  | [i] => do
    let b ← d[i]?
    some (d.take i ++ [{ b with props := pr }] ++ d.drop (i + 1))
  | [i, j] => do
    let b ← d[i]?
    let t ← b.children[j]?
    some (d.take i ++
      [{ b with children := b.children.take j ++ [{ t with props := pr }] ++
          b.children.drop (j + 1) }] ++
      d.drop (i + 1))
  | _ => none

/-- `value.setNode(path, properties)` from the legacy `Value`: property
merge only, no selection repair. -/
def valueSetNode (v : OValue) (path : List Nat) (pr : Nat) : Option OValue := do
  let newDoc ← docSetNode v.doc path pr
  some { v with doc := newDoc }

/-- Modelled from the spec: `document.insertText(path, offset, text)`
splices the string into the text node at `path`. -/
def docInsertText (d : ODoc) (p : List Nat) (off : Nat) (s : List Char) :
    Option ODoc :=
  match p with
  | [i, j] => do
    let b ← d[i]?
    let t ← b.children[j]?
    some (d.take i ++
      [{ b with children := b.children.take j ++
          [{ t with text := t.text.take off ++ s ++ t.text.drop off }] ++
          b.children.drop (j + 1) }] ++
      d.drop (i + 1))
  | _ => none

/-- `value.insertText(path, offset, text)` from the legacy `Value`: points
on that path at or after the offset shift right by the inserted length.
The iterator reads `point.path`, so a point with an invalidated path is a
lookup the source would throw on. -/
def valueInsertText (v : OValue) (path : List Nat) (off : Nat)
    (s : List Char) : Option OValue := do
  let newDoc ← docInsertText v.doc path off s
  let v1 := { v with doc := newDoc }
  mapRangesE v1 (fun range => do
    let a ← (match range.anchor.path with
      | none => none
      | some pp => some (if pp = path ∧ off ≤ range.anchor.offset then
          { range.anchor with offset := range.anchor.offset + s.length }
        else range.anchor))
    let f ← (match range.focus.path with
      | none => none
      | some pp => some (if pp = path ∧ off ≤ range.focus.offset then
          { range.focus with offset := range.focus.offset + s.length }
        else range.focus))
    some (some ⟨a, f⟩))

/-- Modelled from the spec: `document.removeText(path, offset, text)`
splices the matched slice out of the text node at `path`. -/
def docRemoveText (d : ODoc) (p : List Nat) (off len : Nat) : Option ODoc :=
  match p with
  | [i, j] => do
    let b ← d[i]?
    let t ← b.children[j]?
    some (d.take i ++
      [{ b with children := b.children.take j ++
          [{ t with text := t.text.take off ++ t.text.drop (off + len) }] ++
          b.children.drop (j + 1) }] ++
      d.drop (i + 1))
  | _ => none

/-- The per-point update of `value.removeText`: on the removed node, a
point at or after the removed span shifts left by the removed length, a
point strictly inside it clamps to the span start, and earlier points are
untouched. -/
def removeTextPt (nodeKey off len : Nat) (p : OPt) : OPt :=
  if p.key ≠ nodeKey then p
  else if off + len ≤ p.offset then { p with offset := p.offset - len }
  else if off < p.offset then { p with offset := off }
  else p

/-- `value.removeText(path, offset, text)` from the legacy `Value`. -/
def valueRemoveText (v : OValue) (path : List Nat) (off : Nat)
    (s : List Char) : Option OValue := do
  let node ← getNodeO v.doc path
  match node with
  | .text t0 => do
    let newDoc ← docRemoveText v.doc path off s.length
    let v1 := { v with doc := newDoc }
    mapRangesE v1 (fun range =>
      some (some (updatePts (removeTextPt t0.key off s.length) range)))
  | .block _ => none

/-- The operation alphabet of the legacy engine. -/
inductive Op where
  | splitN (path : List Nat) (pos : Nat) (props : Option Nat)
  | mergeN (path : List Nat)
  | insertN (path : List Nat) (spec : NodeSpec)
  | removeN (path : List Nat)
  | moveN (path newPath : List Nat) (idx : Nat)
  | setN (path : List Nat) (props : Nat)
  | insertT (path : List Nat) (off : Nat) (s : List Char)
  | removeT (path : List Nat) (off : Nat) (s : List Char)
deriving DecidableEq, Repr

/-- Apply one operation; a thrown precondition failure leaves the value
unchanged (the source throws before any state is committed, so the caller
keeps the old value). -/
def applyOp (v : OValue) : Op → OValue
  | .splitN p pos pr => (valueSplitNode v p pos pr).getD v
  | .mergeN p => (valueMergeNode v p).getD v
  | .insertN p spec => (valueInsertNode v p spec).getD v
  | .removeN p => (valueRemoveNode v p).getD v
  | .moveN p q i => (valueMoveNode v p q i).getD v
  | .setN p pr => (valueSetNode v p pr).getD v
  | .insertT p off s => (valueInsertText v p off s).getD v
  | .removeT p off s => (valueRemoveText v p off s).getD v

/-- Apply a sequence of operations in order. -/
def applyOps (v : OValue) (ops : List Op) : OValue :=
  ops.foldl applyOp v

/-- Per-point specification of `removeText` selection repair: points on
other nodes are untouched; on the removed node, a point at or after the
end of the removed span shifts left by the removed length, one strictly
inside the span clamps to the span start, one at or before the start is
untouched. -/
def removeTextSpec (k off len : Nat) (p q : OPt) : Prop :=
  (p.key ≠ k → q.key = p.key ∧ q.offset = p.offset) ∧
  (p.key = k → off + len ≤ p.offset → q.key = p.key ∧ q.offset = p.offset - len) ∧
  (p.key = k → off < p.offset → p.offset < off + len → q.key = p.key ∧ q.offset = off) ∧
  (p.key = k → p.offset ≤ off → q.key = p.key ∧ q.offset = p.offset)

/-- A concrete legacy value: one block keyed 10 holding texts keyed 1
("hello") and 2 ("x"), with the selection anchored at offset 5 and
focused at offset 2 of the first text. -/
def wVal : OValue :=
  ⟨[⟨10, 0, [⟨1, ['h', 'e', 'l', 'l', 'o'], 0⟩, ⟨2, ['x'], 0⟩]⟩],
   some ⟨⟨1, some [0, 0], 5⟩, ⟨1, some [0, 0], 2⟩⟩, []⟩

/-- Per-point specification of the text-merge repair: a point on the
merged text moves to the predecessor's key with the predecessor's prior
text length added to its offset; any other point keeps key and offset. -/
def mergeTextSpec (oneKey oneLen t2key : Nat) (p q : OPt) : Prop :=
  (p.key = t2key → q.key = oneKey ∧ q.offset = oneLen + p.offset) ∧
  (p.key ≠ t2key → q.key = p.key ∧ q.offset = p.offset)

/-- Two singleton blocks keyed 10 and 11, each with one text ("a" keyed 1,
"b" keyed 2), selection sitting on the second text. -/
def wMergeVal : OValue :=
  ⟨[⟨10, 0, [⟨1, ['a'], 0⟩]⟩, ⟨11, 0, [⟨2, ['b'], 0⟩]⟩],
   some ⟨⟨2, some [1, 0], 1⟩, ⟨2, some [1, 0], 0⟩⟩, []⟩

/-- All keys carried by a single node. -/
def ONode.keys : ONode → List Nat
  | .block b => b.key :: b.children.map Tx.key
  | .text t => [t.key]

/-- The text keys carried by a single node. -/
def ONode.tkeys : ONode → List Nat
  | .block b => b.children.map Tx.key
  | .text t => [t.key]

/-- Per-point specification of the split repair: a point on the split
node at or after the position moves to the successor key with its offset
re-based; a point on the split node strictly before the position, or on
any other node, keeps its key and offset. -/
def splitPointSpec (nodeKey newKey pos : Nat) (p q : OPt) : Prop :=
  (p.key = nodeKey → pos ≤ p.offset → q.key = newKey ∧ q.offset = p.offset - pos) ∧
  (p.key = nodeKey → p.offset < pos → q.key = p.key ∧ q.offset = p.offset) ∧
  (p.key ≠ nodeKey → q.key = p.key ∧ q.offset = p.offset)

/-- Per-point relocation specification for `removeNode`: a point whose
key lies inside the removed subtree lands on the given key and offset;
any other point keeps its key and offset. -/
def removeRelocSpec (node : ONode) (k o : Nat) (p q : OPt) : Prop :=
  (hasNodeKey node p.key = true → q.key = k ∧ q.offset = o) ∧
  (hasNodeKey node p.key = false → q.key = p.key ∧ q.offset = p.offset)

/-- The selection, when set, refers to text keys present in the
document. -/
def selOk (v : OValue) : Prop :=
  ∀ r, v.selection = some r →
    r.anchor.key ∈ textKeys v.doc ∧ r.focus.key ∈ textKeys v.doc

/-- The engine invariant: document keys are unique and the selection
refers to existing texts. -/
def Inv (v : OValue) : Prop :=
  (allKeys v.doc).Nodup ∧ selOk v

/-! ## Theorems -/

/-- C1: on a range spanning mark sets `{1,2}` and `{2,3}`,
`getActiveMarks` with `union: true` returns only the first node's marks
`[1, 2]` (the union branch tests candidates against the node's own mark
list and so never adds anything), not the union `[1, 2, 3]`; with
`union: false` it returns the intersection `[2]` as documented. -/
theorem getActiveMarks_union_is_first_marks :
    (getActiveMarks gamValue true).1 = [1, 2] ∧
      (getActiveMarks gamValue false).1 = [2] := by
  decide

/-- C5: `getActiveMarks` with the default intersection option mutates the
document: the running result aliases the first text node's marks array and
the intersection splices shrink it in place, so the first node's marks
become `[2]` while the original document had `[1, 2]` there. -/
theorem getActiveMarks_mutates_first_node :
    (getActiveMarks gamValue false).2 =
        [⟨[⟨['a'], [2]⟩, ⟨['b'], [2, 3]⟩], false⟩] ∧
      (getActiveMarks gamValue false).2 ≠ gamValue.doc := by
  decide

/-- C9: with an unset (null) selection, `getActiveMarks` returns the empty
mark list for either union option, without touching the document and
without error. -/
theorem getActiveMarks_unset_selection (d : NDoc) (u : Bool) :
    getActiveMarks ⟨d, none⟩ u = ([], d) := rfl

/-- C2: iterating `positions({ point: start of "a", unit: 'character' })`
over `voidDoc` terminates but yields FOUR points, not three: after the
in-node yield at `⟨[0,0],1⟩`, the trailing text-walk loop (which never
breaks) also yields `⟨[1,0],0⟩` and `⟨[2,0],0⟩` in the same iteration, and
the next iteration yields `⟨[2,0],1⟩`.  The point `⟨[2,0],0⟩` duplicates
the void-boundary step the next iteration would have produced. -/
theorem positions_void_scenario_yields_four :
    positionsList 10 voidDoc .character false (some ⟨[0, 0], 0⟩) =
        ([⟨[0, 0], 1⟩, ⟨[1, 0], 0⟩, ⟨[2, 0], 0⟩, ⟨[2, 0], 1⟩], true) ∧
      (positionsList 10 voidDoc .character false (some ⟨[0, 0], 0⟩)).1.length ≠ 3 := by
  decide

/-- C3: `positions` does not always terminate.  On `lineDoc` with
`unit: 'line'` from the document start, the travel distance is 3 but the
trailing text-walk loop compares it against `t + length` without ever
accumulating `t`, so no text satisfies the test, the point is never
reassigned, and the loop body returns to the identical state having
yielded nothing: the iteration runs forever (the run flag stays false for
every fuel). -/
theorem positions_line_unit_diverges :
    posBody lineDoc .line false ⟨[0, 0], 0⟩ = some (⟨[0, 0], 0⟩, []) ∧
      ∀ fuel, (positionsGo fuel lineDoc .line false ⟨[0, 0], 0⟩) = ([], false) := by
  refine ⟨by decide, ?_⟩
  intro fuel
  induction fuel with
  | zero => rfl
  | succ n ih =>
    have hb : posBody lineDoc .line false ⟨[0, 0], 0⟩ = some (⟨[0, 0], 0⟩, []) := by decide
    simp [positionsGo, hb, ih]

theorem doc_decomp {α : Type} {d : List α} {i : Nat} {b : α}
    (h : d[i]? = some b) : d = d.take i ++ b :: d.drop (i + 1) := by
  have hlen : i < d.length := by
    by_contra hc
    simp [List.getElem?_eq_none (Nat.le_of_not_lt hc)] at h
  have he : d[i] = b := by
    have := List.getElem?_eq_getElem hlen
    rw [this] at h
    exact Option.some.inj h
  conv_lhs => rw [← List.take_append_drop i d]
  rw [List.drop_eq_getElem_cons hlen, he]

theorem allKeys_append (A B : ODoc) :
    allKeys (A ++ B) = allKeys A ++ allKeys B := by
  simp [allKeys]

theorem textKeys_append (A B : ODoc) :
    textKeys (A ++ B) = textKeys A ++ textKeys B := by
  simp [textKeys]

theorem allKeys_cons (b : Blk) (bs : ODoc) :
    allKeys (b :: bs) = (b.key :: b.children.map Tx.key) ++ allKeys bs := by
  simp [allKeys]

theorem textKeys_cons (b : Blk) (bs : ODoc) :
    textKeys (b :: bs) = b.children.map Tx.key ++ textKeys bs := by
  simp [textKeys]

theorem mem_textKeys_of_allKeys {d : ODoc} {k : Nat} (h : k ∈ textKeys d) :
    k ∈ allKeys d := by
  simp only [textKeys, allKeys, List.mem_flatMap] at *
  obtain ⟨b, hb, hk⟩ := h
  exact ⟨b, hb, List.mem_cons_of_mem _ hk⟩

theorem le_foldr_max {k : Nat} {l : List Nat} (h : k ∈ l) :
    k ≤ l.foldr max 0 := by
  induction l with
  | nil => cases h
  | cons x xs ih =>
    rcases List.mem_cons.mp h with rfl | hx
    · exact Nat.le_max_left _ _
    · exact Nat.le_trans (ih hx) (Nat.le_max_right _ _)

theorem freshKey_not_mem (d : ODoc) : freshKey d ∉ allKeys d := by
  intro h
  have h2 := le_foldr_max h
  unfold freshKey at h2
  omega

/-- Characterization of a successful `mapRanges`: the document is kept and
the new selection is the iterator's output on the old selection,
re-resolved when it changed. -/
theorem mapRangesE_selection {v : OValue} {f : ORg → Option (Option ORg)}
    {v' : OValue} (h : mapRangesE v f = some v') :
    v'.doc = v.doc ∧
      ((v.selection = none ∧ v'.selection = none) ∨
        ∃ r o, v.selection = some r ∧ f r = some o ∧
          v'.selection = o.map (fun r' =>
            if r' = r then r' else createRange v.doc r')) := by
  unfold mapRangesE at h
  cases hs : v.selection with
  | none =>
    rw [hs] at h
    simp only [Option.bind_eq_bind, Option.some_bind, Option.bind_eq_some] at h
    obtain ⟨w, _, hv'⟩ := h
    have hv'' : v' = { v with selection := none, anns := w } :=
      (Option.some.inj hv').symm
    subst hv''
    exact ⟨rfl, Or.inl ⟨rfl, rfl⟩⟩
  | some r =>
    rw [hs] at h
    simp only [Option.bind_eq_bind, Option.bind_eq_some, Option.map_eq_some'] at h
    obtain ⟨sel, ⟨o, hfo, hselo⟩, w, _, hv'⟩ := h
    have hv'' : v' = { v with selection := sel, anns := w } :=
      (Option.some.inj hv').symm
    subst hv''
    exact ⟨rfl, Or.inr ⟨r, o, rfl, hfo, hselo.symm⟩⟩

/-- Key and offset of a point survive the re-resolution wrapper used by
`mapRanges` (`createSelection` only recomputes the cached path). -/
theorem resolveWrap_key_offset (d : ODoc) (r r' : ORg) :
    ((if r' = r then r' else createRange d r').anchor.key = r'.anchor.key ∧
      (if r' = r then r' else createRange d r').anchor.offset = r'.anchor.offset) ∧
    ((if r' = r then r' else createRange d r').focus.key = r'.focus.key ∧
      (if r' = r then r' else createRange d r').focus.offset = r'.focus.offset) := by
  split <;> simp [createRange, resolvePt]

theorem pathLt_pair {a b c d : Nat} :
    pathLt [a, b] [c, d] = true ↔ a < c ∨ (a = c ∧ b < d) := by
  simp only [pathLt]
  split_ifs <;> simp_all

theorem pathLt_pair_single {a b c : Nat} :
    pathLt [a, b] [c] = true ↔ a < c := by
  simp only [pathLt]
  split_ifs <;> simp_all

theorem pathLt_single_single {a c : Nat} :
    pathLt [a] [c] = true ↔ a < c := by
  simp only [pathLt]
  split_ifs <;> simp_all

theorem pathLt_single_pair {a c d : Nat} :
    pathLt [a] [c, d] = true ↔ a ≤ c := by
  simp only [pathLt]
  split_ifs <;> simp_all <;> omega

theorem prefix_single_pair {a c d : Nat} :
    [a].isPrefixOf [c, d] = true ↔ a = c := by
  simp [List.isPrefixOf]

theorem prefix_pair_pair {a b c d : Nat} :
    [a, b].isPrefixOf [c, d] = true ↔ a = c ∧ b = d := by
  simp [List.isPrefixOf]

theorem txEntriesO_mem {i j : Nat} {ts : List Tx} {t : Tx} {q : List Nat} :
    (t, q) ∈ txEntriesO i j ts ↔ ∃ j', ts[j']? = some t ∧ q = [i, j + j'] := by
  induction ts generalizing j with
  | nil => simp [txEntriesO]
  | cons x xs ih =>
    simp only [txEntriesO, List.mem_cons, Prod.mk.injEq, ih]
    constructor
    · rintro (⟨rfl, rfl⟩ | ⟨j', hj', rfl⟩)
      · exact ⟨0, by simp, by simp⟩
      · refine ⟨j' + 1, by simpa using hj', ?_⟩
        have : j + 1 + j' = j + (j' + 1) := by omega
        rw [this]
    · rintro ⟨j', hj', rfl⟩
      cases j' with
      | zero =>
        left
        simp only [List.getElem?_cons_zero, Option.some.injEq] at hj'
        simp [hj']
      | succ n =>
        right
        refine ⟨n, by simpa using hj', ?_⟩
        have : j + (n + 1) = j + 1 + n := by omega
        rw [this]

theorem docEntriesO_mem {m : Nat} {d : ODoc} {t : Tx} {q : List Nat} :
    (t, q) ∈ docEntriesO m d ↔
      ∃ (i : Nat) (b : Blk) (j : Nat),
        d[i]? = some b ∧ b.children[j]? = some t ∧ q = [m + i, j] := by
  induction d generalizing m with
  | nil => simp [docEntriesO]
  | cons x xs ih =>
    simp only [docEntriesO, List.mem_append, txEntriesO_mem, ih]
    constructor
    · rintro (⟨j', hj', rfl⟩ | ⟨i, b, j, hb, ht, rfl⟩)
      · exact ⟨0, x, j', by simp, by simpa using hj', by simp⟩
      · refine ⟨i + 1, b, j, by simpa using hb, ht, ?_⟩
        have : m + 1 + i = m + (i + 1) := by omega
        rw [this]
    · rintro ⟨i, b, j, hb, ht, rfl⟩
      cases i with
      | zero =>
        left
        simp only [List.getElem?_cons_zero, Option.some.injEq] at hb
        subst hb
        exact ⟨j, ht, by simp⟩
      | succ n =>
        right
        refine ⟨n, b, j, by simpa using hb, ht, ?_⟩
        have : m + (n + 1) = m + 1 + n := by omega
        rw [this]

theorem docEntriesO_append (m : Nat) (A B : ODoc) :
    docEntriesO m (A ++ B) = docEntriesO m A ++ docEntriesO (m + A.length) B := by
  induction A generalizing m with
  | nil => simp [docEntriesO]
  | cons x xs ih =>
    show txEntriesO m 0 x.children ++ docEntriesO (m + 1) (xs ++ B) =
      (txEntriesO m 0 x.children ++ docEntriesO (m + 1) xs) ++
        docEntriesO (m + (xs.length + 1)) B
    rw [ih, List.append_assoc]
    have h2 : m + 1 + xs.length = m + (xs.length + 1) := by omega
    rw [h2]

theorem txEntriesO_append (i j : Nat) (X Y : List Tx) :
    txEntriesO i j (X ++ Y) = txEntriesO i j X ++ txEntriesO i (j + X.length) Y := by
  induction X generalizing j with
  | nil => simp [txEntriesO]
  | cons x xs ih =>
    show (x, [i, j]) :: txEntriesO i (j + 1) (xs ++ Y) =
      ((x, [i, j]) :: txEntriesO i (j + 1) xs) ++ txEntriesO i (j + (xs.length + 1)) Y
    rw [List.cons_append, ih]
    have h2 : j + 1 + xs.length = j + (xs.length + 1) := by omega
    rw [h2]

theorem mem_textKeys_of_entry {d : ODoc} {t : Tx} {q : List Nat}
    (h : (t, q) ∈ docEntriesO 0 d) : t.key ∈ textKeys d := by
  rw [docEntriesO_mem] at h
  obtain ⟨i, b, j, hb, ht, _⟩ := h
  simp only [textKeys, List.mem_flatMap]
  exact ⟨b, List.getElem?_mem hb, List.mem_map_of_mem _ (List.getElem?_mem ht)⟩

theorem txFindIdx_skip {k j : Nat} {X Y : List Tx}
    (h : ∀ t ∈ X, t.key ≠ k) :
    txFindIdx k j (X ++ Y) = txFindIdx k (j + X.length) Y := by
  induction X generalizing j with
  | nil => simp
  | cons x xs ih =>
    have hx := h x (List.mem_cons_self _ _)
    show txFindIdx k j (x :: (xs ++ Y)) = _
    rw [txFindIdx, if_neg hx, ih (fun t ht => h t (List.mem_cons_of_mem _ ht))]
    have h2 : j + 1 + xs.length = j + (x :: xs).length := by simp; omega
    rw [h2]

theorem txFindIdx_none {k j : Nat} {X : List Tx}
    (h : ∀ t ∈ X, t.key ≠ k) : txFindIdx k j X = none := by
  induction X generalizing j with
  | nil => rfl
  | cons x xs ih =>
    rw [txFindIdx, if_neg (h x (List.mem_cons_self _ _))]
    exact ih (fun t ht => h t (List.mem_cons_of_mem _ ht))

theorem findKeyGo_skip {k m : Nat} {A B : ODoc}
    (h : ∀ b ∈ A, b.key ≠ k ∧ ∀ t ∈ b.children, t.key ≠ k) :
    findKeyGo k m (A ++ B) = findKeyGo k (m + A.length) B := by
  induction A generalizing m with
  | nil => simp
  | cons x xs ih =>
    have hx := h x (List.mem_cons_self _ _)
    show findKeyGo k m (x :: (xs ++ B)) = _
    rw [findKeyGo, if_neg hx.1, txFindIdx_none hx.2,
      ih (fun b hb => h b (List.mem_cons_of_mem _ hb))]
    have h2 : m + 1 + xs.length = m + (x :: xs).length := by simp; omega
    rw [h2]

theorem getElem?_lt {α : Type} {l : List α} {i : Nat} {x : α}
    (h : l[i]? = some x) : i < l.length := by
  by_contra hc
  simp [List.getElem?_eq_none (Nat.le_of_not_lt hc)] at h

/-- Split a `Nodup` fact about a document's keys at a given block: every
key of an earlier block differs from every key carried by this block, and
this block's own keys are distinct. -/
theorem allKeys_nodup_decomp {d : ODoc} {i : Nat} {b : Blk}
    (hn : (allKeys d).Nodup) (hb : d[i]? = some b) :
    (∀ blk ∈ d.take i, ∀ k ∈ b.key :: b.children.map Tx.key,
        blk.key ≠ k ∧ ∀ t ∈ blk.children, t.key ≠ k) ∧
      (b.key :: b.children.map Tx.key).Nodup := by
  have hd := doc_decomp hb
  rw [hd] at hn
  rw [allKeys_append, allKeys_cons, List.nodup_append] at hn
  obtain ⟨_, hn2, hdisj⟩ := hn
  constructor
  · intro blk hblk k hk
    have hmem : ∀ x ∈ blk.key :: blk.children.map Tx.key, x ∈ allKeys (d.take i) := by
      intro x hx
      simp only [allKeys, List.mem_flatMap]
      exact ⟨blk, hblk, hx⟩
    have hnotin : ∀ x ∈ blk.key :: blk.children.map Tx.key,
        x ∉ b.key :: b.children.map Tx.key := by
      intro x hx hxin
      exact hdisj (hmem x hx) (List.mem_append_left _ hxin)
    refine ⟨fun heq => hnotin blk.key (List.mem_cons_self _ _) (by rw [heq]; exact hk), ?_⟩
    intro t ht heq
    exact hnotin t.key
      (List.mem_cons_of_mem _ (List.mem_map_of_mem _ ht)) (by rw [heq]; exact hk)
  · rw [List.nodup_append] at hn2
    exact hn2.1

/-- Under key uniqueness, resolving a text's key finds exactly its
position. -/
theorem findKeyPath_text {d : ODoc} {i j : Nat} {b : Blk} {t : Tx}
    (hn : (allKeys d).Nodup) (hb : d[i]? = some b)
    (ht : b.children[j]? = some t) :
    findKeyPath d t.key = some [i, j] := by
  obtain ⟨hskip, hmid⟩ := allKeys_nodup_decomp hn hb
  have htmem : t.key ∈ b.key :: b.children.map Tx.key :=
    List.mem_cons_of_mem _ (List.mem_map_of_mem _ (List.getElem?_mem ht))
  have hd := doc_decomp hb
  have hlen : i < d.length := getElem?_lt hb
  have hjlen : j < b.children.length := getElem?_lt ht
  have htake : (d.take i).length = i := by
    rw [List.length_take]; omega
  have hbk : b.key ≠ t.key := by
    rw [List.nodup_cons] at hmid
    intro he
    exact hmid.1 (by rw [he]; exact List.mem_map_of_mem _ (List.getElem?_mem ht))
  have hctake : ∀ x ∈ b.children.take j, x.key ≠ t.key := by
    rw [List.nodup_cons] at hmid
    have hnd := hmid.2
    have hcd := doc_decomp ht
    rw [hcd, List.map_append, List.map_cons, List.nodup_append] at hnd
    intro x hx he
    exact hnd.2.2 (List.mem_map_of_mem _ hx) (by rw [he]; exact List.mem_cons_self _ _)
  have hcd := doc_decomp ht
  have hctlen : (b.children.take j).length = j := by
    rw [List.length_take]; omega
  unfold findKeyPath
  conv_lhs => rw [hd]
  rw [findKeyGo_skip (fun blk hblk => hskip blk hblk t.key htmem), htake,
    findKeyGo, if_neg hbk]
  have hfd : txFindIdx t.key 0 b.children = some j := by
    conv_lhs => rw [hcd]
    rw [txFindIdx_skip hctake, txFindIdx, if_pos rfl, hctlen, Nat.zero_add]
  rw [hfd]
  simp

/-- Under key uniqueness, resolving a block's key finds exactly its
position. -/
theorem findKeyPath_block {d : ODoc} {i : Nat} {b : Blk}
    (hn : (allKeys d).Nodup) (hb : d[i]? = some b) :
    findKeyPath d b.key = some [i] := by
  obtain ⟨hskip, _⟩ := allKeys_nodup_decomp hn hb
  have hd := doc_decomp hb
  have hlen : i < d.length := getElem?_lt hb
  have htake : (d.take i).length = i := by
    rw [List.length_take]; omega
  unfold findKeyPath
  conv_lhs => rw [hd]
  rw [findKeyGo_skip (fun blk hblk => hskip blk hblk b.key (List.mem_cons_self _ _)),
    htake, findKeyGo, if_pos rfl]
  simp

theorem mem_textKeys_iff {d : ODoc} {k : Nat} :
    k ∈ textKeys d ↔
      ∃ (i : Nat) (b : Blk) (j : Nat) (t : Tx),
        d[i]? = some b ∧ b.children[j]? = some t ∧ t.key = k := by
  simp only [textKeys, List.mem_flatMap, List.mem_map]
  constructor
  · rintro ⟨b, hb, t, ht, rfl⟩
    obtain ⟨i, hi, hbi⟩ := List.getElem_of_mem hb
    obtain ⟨j, hj, htj⟩ := List.getElem_of_mem ht
    refine ⟨i, b, j, t, ?_, ?_, rfl⟩
    · rw [List.getElem?_eq_getElem hi, hbi]
    · rw [List.getElem?_eq_getElem hj, htj]
  · rintro ⟨i, b, j, t, hb, ht, rfl⟩
    exact ⟨b, List.getElem?_mem hb, t, List.getElem?_mem ht, rfl⟩

theorem removeTextPt_spec (k off len : Nat) (p : OPt) :
    removeTextSpec k off len p (removeTextPt k off len p) := by
  unfold removeTextSpec removeTextPt
  refine ⟨?_, ?_, ?_, ?_⟩ <;> intros <;> split_ifs <;> simp_all <;> omega

theorem removeTextSpec_congr {k off len : Nat} {p q q' : OPt}
    (h : removeTextSpec k off len p q)
    (hk : q'.key = q.key) (ho : q'.offset = q.offset) :
    removeTextSpec k off len p q' := by
  unfold removeTextSpec at *
  rw [hk, ho]
  exact h

/-- C8: for `removeText(path, offset, text)` on a text node, every
selection point on that node at or after the end of the removed span has
its offset reduced by the removed length; every point strictly inside the
span clamps to `offset`; points at or before `offset`, and points on
other nodes, keep their key and offset — anchor and focus independently. -/
theorem removeText_point_shift
    {v : OValue} {i j : Nat} {t0 : Tx} {off : Nat} {s : List Char}
    {r : ORg} {v' : OValue}
    (hnode : getNodeO v.doc [i, j] = some (.text t0))
    (hsel : v.selection = some r)
    (hv : valueRemoveText v [i, j] off s = some v') :
    ∃ r', v'.selection = some r' ∧
      removeTextSpec t0.key off s.length r.anchor r'.anchor ∧
      removeTextSpec t0.key off s.length r.focus r'.focus := by
  unfold valueRemoveText at hv
  rw [hnode] at hv
  simp only [Option.bind_eq_bind, Option.some_bind] at hv
  rw [Option.bind_eq_some] at hv
  obtain ⟨d2, _, hv⟩ := hv
  obtain ⟨_, hsel2⟩ := mapRangesE_selection hv
  rcases hsel2 with ⟨hnone, _⟩ | ⟨r2, o, hr2, hfo, hv'sel⟩
  · simp [hsel] at hnone
  · simp only [hsel, Option.some.injEq] at hr2
    subst hr2
    have ho : o = some (updatePts (removeTextPt t0.key off s.length) r) :=
      (Option.some.inj hfo).symm
    subst ho
    simp only [Option.map_some'] at hv'sel
    have hw := resolveWrap_key_offset d2 r
      (updatePts (removeTextPt t0.key off s.length) r)
    refine ⟨_, hv'sel, ?_, ?_⟩
    · exact removeTextSpec_congr (removeTextPt_spec t0.key off s.length r.anchor)
        hw.1.1 hw.1.2
    · exact removeTextSpec_congr (removeTextPt_spec t0.key off s.length r.focus)
        hw.2.1 hw.2.2

/-- Witness for C8: removing "ell" at offset 1 of the first text shifts
the anchor (at the very end) left by 3 and clamps the focus (inside the
span) to 1. -/
theorem removeText_point_shift_witness :
    ∃ r', (⟨[⟨10, 0, [⟨1, ['h', 'o'], 0⟩, ⟨2, ['x'], 0⟩]⟩],
        some ⟨⟨1, some [0, 0], 2⟩, ⟨1, some [0, 0], 1⟩⟩, []⟩ : OValue).selection = some r' ∧
      removeTextSpec 1 1 3 ⟨1, some [0, 0], 5⟩ r'.anchor ∧
      removeTextSpec 1 1 3 ⟨1, some [0, 0], 2⟩ r'.focus :=
  @removeText_point_shift wVal 0 0 ⟨1, ['h', 'e', 'l', 'l', 'o'], 0⟩ 1 ['e', 'l', 'l']
    ⟨⟨1, some [0, 0], 5⟩, ⟨1, some [0, 0], 2⟩⟩
    ⟨[⟨10, 0, [⟨1, ['h', 'o'], 0⟩, ⟨2, ['x'], 0⟩]⟩],
      some ⟨⟨1, some [0, 0], 2⟩, ⟨1, some [0, 0], 1⟩⟩, []⟩
    (by decide) (by decide) (by decide)

theorem mergeTextSpec_congr {k1 m t2k : Nat} {p q q' : OPt}
    (h : mergeTextSpec k1 m t2k p q)
    (hk : q'.key = q.key) (ho : q'.offset = q.offset) :
    mergeTextSpec k1 m t2k p q' := by
  unfold mergeTextSpec at *
  rw [hk, ho]
  exact h

/-- C10: `mergeNode(path)` re-bases selection point offsets (adding the
predecessor's prior text length) only when the merged node is a text
node; when a block is merged into its predecessor, every selection point
keeps its key and offset, its cached path merely being invalidated and
re-resolved by key. -/
theorem mergeNode_rebases_only_text
    {v : OValue} {path : List Nat} {r : ORg} {v' : OValue}
    (hsel : v.selection = some r)
    (hv : valueMergeNode v path = some v') :
    (∀ (wp : List Nat) (one : ONode) (t2 : Tx),
        decrementP path = some wp → getNodeO v.doc wp = some one →
        getNodeO v.doc path = some (.text t2) →
        ∃ r', v'.selection = some r' ∧
          mergeTextSpec one.nkey one.ntextLen t2.key r.anchor r'.anchor ∧
          mergeTextSpec one.nkey one.ntextLen t2.key r.focus r'.focus) ∧
    (∀ b2 : Blk, getNodeO v.doc path = some (.block b2) →
        ∃ r', v'.selection = some r' ∧
          (r'.anchor.key = r.anchor.key ∧ r'.anchor.offset = r.anchor.offset ∧
            (r'.anchor.path = none ∨
              r'.anchor.path = findKeyPath v'.doc r.anchor.key)) ∧
          (r'.focus.key = r.focus.key ∧ r'.focus.offset = r.focus.offset ∧
            (r'.focus.path = none ∨
              r'.focus.path = findKeyPath v'.doc r.focus.key))) := by
  unfold valueMergeNode at hv
  simp only [Option.bind_eq_bind, Option.bind_eq_some] at hv
  obtain ⟨nd, hnd, wp0, hwp0, one0, hone0, two0, htwo0, hmap⟩ := hv
  obtain ⟨hdoc, hsel2⟩ := mapRangesE_selection hmap
  rcases hsel2 with ⟨hnone, _⟩ | ⟨r2, o, hr2, hfo, hv'sel⟩
  · simp [hsel] at hnone
  · simp only [hsel, Option.some.injEq] at hr2
    subst hr2
    constructor
    · intro wp one t2 hwp hone ht2
      have hone' : one = one0 := by
        have hwp' : wp = wp0 := Option.some.inj (hwp.symm.trans hwp0)
        rw [hwp'] at hone
        exact Option.some.inj (hone.symm.trans hone0)
      subst hone'
      have htwo' : two0 = .text t2 := Option.some.inj (htwo0.symm.trans ht2)
      subst htwo'
      have ho := (Option.some.inj hfo).symm
      subst ho
      simp only [Option.map_some'] at hv'sel
      by_cases ha : r.anchor.key = t2.key <;> by_cases hf : r.focus.key = t2.key <;>
        refine ⟨_, hv'sel,
          mergeTextSpec_congr ?_
            ((resolveWrap_key_offset nd r _).1.1) ((resolveWrap_key_offset nd r _).1.2),
          mergeTextSpec_congr ?_
            ((resolveWrap_key_offset nd r _).2.1) ((resolveWrap_key_offset nd r _).2.2)⟩ <;>
        unfold mergeTextSpec <;>
        constructor <;> intro h1 <;>
        simp_all [updatePts, setPathNull]
    · intro b2 hb2
      have htwo' : two0 = .block b2 := Option.some.inj (htwo0.symm.trans hb2)
      subst htwo'
      have ho := (Option.some.inj hfo).symm
      subst ho
      simp only [Option.map_some'] at hv'sel
      have hw := resolveWrap_key_offset nd r (updatePts setPathNull r)
      refine ⟨_, hv'sel, ⟨hw.1.1, hw.1.2, ?_⟩, ⟨hw.2.1, hw.2.2, ?_⟩⟩ <;>
        rw [hdoc] <;>
        split_ifs with hcase
      · exact Or.inl rfl
      · exact Or.inr rfl
      · exact Or.inl rfl
      · exact Or.inr rfl

/-- Witness for C10, block half: merging block `[1]` into block `[0]`
keeps the selection's keys and offsets, with only the cached paths
re-resolved. -/
theorem mergeNode_rebases_only_text_witness :
    ∃ r', (applyOp wMergeVal (.mergeN [1])).selection = some r' ∧
      (r'.anchor.key = 2 ∧ r'.anchor.offset = 1 ∧
        (r'.anchor.path = none ∨
          r'.anchor.path = findKeyPath (applyOp wMergeVal (.mergeN [1])).doc 2)) ∧
      (r'.focus.key = 2 ∧ r'.focus.offset = 0 ∧
        (r'.focus.path = none ∨
          r'.focus.path = findKeyPath (applyOp wMergeVal (.mergeN [1])).doc 2)) := by
  have h := (@mergeNode_rebases_only_text wMergeVal [1]
    ⟨⟨2, some [1, 0], 1⟩, ⟨2, some [1, 0], 0⟩⟩ (applyOp wMergeVal (.mergeN [1]))
    (by decide) (by decide)).2 ⟨11, 0, [⟨2, ['b'], 0⟩]⟩ (by decide)
  exact h

theorem docSplitNode_keys {d : ODoc} {p : List Nat} {pos fk : Nat}
    {pr : Option Nat} {d' : ODoc}
    (h : docSplitNode d p pos fk pr = some d') :
    (allKeys d').Perm (fk :: allKeys d) ∧
      ∀ k, k ∈ textKeys d → k ∈ textKeys d' := by
  match p with
  | [] => simp [docSplitNode] at h
  | [i] =>
    unfold docSplitNode at h
    simp only [Option.bind_eq_bind, Option.bind_eq_some, Option.some.injEq] at h
    obtain ⟨b, hb, hd'⟩ := h
    subst hd'
    have hd := doc_decomp hb
    have hmapsplit : List.map Tx.key b.children =
        List.map Tx.key (b.children.take pos) ++ List.map Tx.key (b.children.drop pos) := by
      rw [← List.map_append, List.take_append_drop]
    constructor
    · rw [List.perm_iff_count]
      intro a
      conv_rhs => rw [hd]
      simp only [allKeys, List.flatMap_append, List.flatMap_cons, List.flatMap_nil,
        List.count_append, List.count_cons, List.append_nil, List.map_nil, List.count_nil]
      rw [hmapsplit]
      simp only [List.count_append]
      split_ifs <;> omega
    · intro k hk
      rw [hd] at hk
      simp only [textKeys, List.flatMap_append, List.flatMap_cons, List.flatMap_nil,
        List.mem_append, List.append_nil, List.map_nil] at hk ⊢
      have hiff : k ∈ List.map Tx.key b.children ↔
          k ∈ List.map Tx.key (b.children.take pos) ∨
            k ∈ List.map Tx.key (b.children.drop pos) := by
        rw [hmapsplit, List.mem_append]
      tauto
  | [i, j] =>
    unfold docSplitNode at h
    simp only [Option.bind_eq_bind, Option.bind_eq_some, Option.some.injEq] at h
    obtain ⟨b, hb, t, ht, hd'⟩ := h
    subst hd'
    have hd := doc_decomp hb
    have hcd := doc_decomp ht
    have hmapsplit : List.map Tx.key b.children =
        List.map Tx.key (b.children.take j) ++
          t.key :: List.map Tx.key (b.children.drop (j + 1)) := by
      conv_lhs => rw [hcd]
      rw [List.map_append, List.map_cons]
    constructor
    · rw [List.perm_iff_count]
      intro a
      conv_rhs => rw [hd]
      simp only [allKeys, List.flatMap_append, List.flatMap_cons, List.flatMap_nil,
        List.count_append, List.count_cons, List.append_nil, List.map_nil, List.count_nil, List.map_append,
        List.map_cons]
      rw [hmapsplit]
      simp only [List.count_append, List.count_cons]
      split_ifs <;> omega
    · intro k hk
      rw [hd] at hk
      simp only [textKeys, List.flatMap_append, List.flatMap_cons, List.flatMap_nil,
        List.mem_append, List.append_nil, List.map_nil, List.map_append, List.map_cons,
        List.mem_cons] at hk ⊢
      have hiff : k ∈ List.map Tx.key b.children ↔
          k ∈ List.map Tx.key (b.children.take j) ∨
            (k = t.key ∨ k ∈ List.map Tx.key (b.children.drop (j + 1))) := by
        rw [hmapsplit, List.mem_append, List.mem_cons]
      rcases hk with h1 | h2 | h3
      · tauto
      · rcases hiff.mp h2 with h4 | h4 | h4 <;> tauto
      · tauto
  | _ :: _ :: _ :: _ => simp [docSplitNode] at h

theorem drop_cons_of_getElem {α : Type} {l : List α} {i : Nat} {x : α}
    (h : l[i]? = some x) : l.drop i = x :: l.drop (i + 1) := by
  have hlen : i < l.length := getElem?_lt h
  rw [List.drop_eq_getElem_cons hlen]
  rw [List.getElem?_eq_getElem hlen] at h
  rw [Option.some.inj h]

theorem docMergeNode_text_keys {d : ODoc} {i j : Nat} {d' : ODoc}
    {b : Blk} {t1 t2 : Tx}
    (hb : d[i]? = some b) (ht1 : b.children[j - 1]? = some t1)
    (ht2 : b.children[j]? = some t2) (hj : j ≠ 0)
    (h : docMergeNode d [i, j] = some d') :
    (t2.key :: allKeys d').Perm (allKeys d) ∧
      (t2.key :: textKeys d').Perm (textKeys d) ∧ t1.key ∈ textKeys d' := by
  simp only [docMergeNode] at h
  rw [if_neg hj] at h
  simp only [Option.bind_eq_bind, Option.bind_eq_some, Option.some.injEq] at h
  obtain ⟨b0, hb0, ta, hta, tb, htb, hd'⟩ := h
  rw [hb] at hb0
  rw [(Option.some.inj hb0).symm] at hta htb hd'
  rw [ht1] at hta
  rw [ht2] at htb
  rw [(Option.some.inj hta).symm, (Option.some.inj htb).symm] at hd'
  subst hd'
  have hd := doc_decomp hb
  have hsplit : b.children =
      b.children.take (j - 1) ++ t1 :: t2 :: b.children.drop (j + 1) := by
    have h1 := doc_decomp ht1
    have h2 := drop_cons_of_getElem ht2
    have hj' : j - 1 + 1 = j := by omega
    rw [hj', h2] at h1
    exact h1
  have hmapsplit : List.map Tx.key b.children =
      List.map Tx.key (b.children.take (j - 1)) ++
        t1.key :: t2.key :: List.map Tx.key (b.children.drop (j + 1)) := by
    conv_lhs => rw [hsplit]
    rw [List.map_append, List.map_cons, List.map_cons]
  refine ⟨?_, ?_, ?_⟩
  · rw [List.perm_iff_count]
    intro a
    conv_rhs => rw [hd]
    simp only [allKeys, List.flatMap_append, List.flatMap_cons, List.flatMap_nil,
      List.count_append, List.count_cons, List.append_nil, List.map_nil, List.count_nil, List.map_append,
      List.map_cons]
    rw [hmapsplit]
    simp only [List.count_append, List.count_cons]
    split_ifs <;> omega
  · rw [List.perm_iff_count]
    intro a
    conv_rhs => rw [hd]
    simp only [textKeys, List.flatMap_append, List.flatMap_cons, List.flatMap_nil,
      List.count_append, List.count_cons, List.append_nil, List.map_nil, List.count_nil, List.map_append,
      List.map_cons]
    rw [hmapsplit]
    simp only [List.count_append, List.count_cons]
    split_ifs <;> omega
  · simp only [textKeys, List.flatMap_append, List.flatMap_cons, List.flatMap_nil,
      List.mem_append, List.append_nil, List.map_nil, List.map_append, List.map_cons,
      List.mem_cons]
    tauto

theorem docMergeNode_block_keys {d : ODoc} {i : Nat} {d' : ODoc} {b2 : Blk}
    (hb2 : d[i]? = some b2) (hi : i ≠ 0)
    (h : docMergeNode d [i] = some d') :
    (b2.key :: allKeys d').Perm (allKeys d) ∧
      (textKeys d').Perm (textKeys d) := by
  simp only [docMergeNode] at h
  rw [if_neg hi] at h
  simp only [Option.bind_eq_bind, Option.bind_eq_some, Option.some.injEq] at h
  obtain ⟨b1, hb1, b2', hb2', hd'⟩ := h
  rw [hb2] at hb2'
  rw [(Option.some.inj hb2').symm] at hd'
  subst hd'
  have hsplit : d = d.take (i - 1) ++ b1 :: b2 :: d.drop (i + 1) := by
    have h1 := doc_decomp hb1
    have h2 := drop_cons_of_getElem hb2
    have hi' : i - 1 + 1 = i := by omega
    rw [hi', h2] at h1
    exact h1
  constructor
  · rw [List.perm_iff_count]
    intro a
    conv_rhs => rw [hsplit]
    simp only [allKeys, List.flatMap_append, List.flatMap_cons, List.flatMap_nil,
      List.count_append, List.count_cons, List.append_nil, List.map_nil, List.count_nil, List.map_append]
    split_ifs <;> omega
  · rw [List.perm_iff_count]
    intro a
    conv_rhs => rw [hsplit]
    simp only [textKeys, List.flatMap_append, List.flatMap_cons, List.flatMap_nil,
      List.count_append, List.count_cons, List.append_nil, List.map_nil, List.count_nil, List.map_append]
    omega

theorem getElem?_append_length {α : Type} (A B : List α) (x : α) :
    (A ++ x :: B)[A.length]? = some x := by
  rw [List.getElem?_append_right (Nat.le_refl _)]
  simp

theorem getElem?_append_length_succ {α : Type} (A B : List α) (x y : α) :
    (A ++ x :: y :: B)[A.length + 1]? = some y := by
  rw [List.getElem?_append_right (by omega)]
  have h2 : A.length + 1 - A.length = 1 := by omega
  rw [h2]
  simp

/-- After splitting the text at `[i, j]`, resolving the original key and
taking the next text finds exactly the freshly keyed successor at
`[i, j + 1]`. -/
theorem splitNode_next_text {d : ODoc} {i j pos : Nat} {pr : Option Nat}
    {b : Blk} {t : Tx} {d' : ODoc}
    (hn : (allKeys d).Nodup)
    (hb : d[i]? = some b) (ht : b.children[j]? = some t)
    (h : docSplitNode d [i, j] pos (freshKey d) pr = some d') :
    getNextTextByKey d' t.key =
      some (⟨freshKey d, t.text.drop pos, pr.getD t.props⟩, [i, j + 1]) := by
  have hperm := (docSplitNode_keys h).1
  have hn' : (allKeys d').Nodup := by
    rw [hperm.nodup_iff, List.nodup_cons]
    exact ⟨freshKey_not_mem d, hn⟩
  unfold docSplitNode at h
  simp only [Option.bind_eq_bind, Option.bind_eq_some, Option.some.injEq] at h
  obtain ⟨b0, hb0, t0, ht0, hd'⟩ := h
  rw [hb] at hb0
  rw [(Option.some.inj hb0).symm] at ht0 hd'
  rw [ht] at ht0
  rw [(Option.some.inj ht0).symm] at hd'
  have hilen : i < d.length := getElem?_lt hb
  have hjlen : j < b.children.length := getElem?_lt ht
  have htakelen : (d.take i).length = i := by rw [List.length_take]; omega
  have hctakelen : (b.children.take j).length = j := by rw [List.length_take]; omega
  have hdb : d'[i]? =
      some { b with children := b.children.take j ++
        [⟨t.key, t.text.take pos, t.props⟩,
         ⟨freshKey d, t.text.drop pos, pr.getD t.props⟩] ++ b.children.drop (j + 1) } := by
    rw [← hd', List.append_assoc]
    have h0 := getElem?_append_length (d.take i) (d.drop (i + 1))
      ({ b with children := b.children.take j ++
        [⟨t.key, t.text.take pos, t.props⟩,
         ⟨freshKey d, t.text.drop pos, pr.getD t.props⟩] ++ b.children.drop (j + 1) })
    rw [htakelen] at h0
    exact h0
  have hcj : (b.children.take j ++
      [⟨t.key, t.text.take pos, t.props⟩,
       ⟨freshKey d, t.text.drop pos, pr.getD t.props⟩] ++ b.children.drop (j + 1))[j]? =
      some ⟨t.key, t.text.take pos, t.props⟩ := by
    rw [List.append_assoc]
    have h0 := getElem?_append_length (b.children.take j)
      ((⟨freshKey d, t.text.drop pos, pr.getD t.props⟩ : Tx) :: b.children.drop (j + 1))
      (⟨t.key, t.text.take pos, t.props⟩ : Tx)
    rw [hctakelen] at h0
    exact h0
  have hfkp : findKeyPath d' t.key = some [i, j] := by
    have h0 := findKeyPath_text hn' hdb hcj
    simpa using h0
  unfold getNextTextByKey
  rw [hfkp]
  simp only [Option.bind_eq_bind, Option.some_bind]
  have hentries : docEntriesO 0 d' =
      docEntriesO 0 (d.take i) ++
        (txEntriesO i 0 (b.children.take j) ++
          ((⟨t.key, t.text.take pos, t.props⟩, [i, j]) ::
            ((⟨freshKey d, t.text.drop pos, pr.getD t.props⟩ : Tx), [i, j + 1]) ::
              txEntriesO i (j + 2) (b.children.drop (j + 1)))) ++
        docEntriesO (i + 1) (d.drop (i + 1)) := by
    rw [← hd', List.append_assoc, docEntriesO_append, htakelen, Nat.zero_add,
      List.singleton_append]
    have h1 : docEntriesO i
        ({ b with children := b.children.take j ++
          [⟨t.key, t.text.take pos, t.props⟩,
           ⟨freshKey d, t.text.drop pos, pr.getD t.props⟩] ++ b.children.drop (j + 1) } ::
            d.drop (i + 1)) =
        txEntriesO i 0 (b.children.take j ++
          [⟨t.key, t.text.take pos, t.props⟩,
           ⟨freshKey d, t.text.drop pos, pr.getD t.props⟩] ++ b.children.drop (j + 1)) ++
          docEntriesO (i + 1) (d.drop (i + 1)) := by
      rw [docEntriesO]
    rw [h1]
    rw [List.append_assoc]
    rw [txEntriesO_append]
    rw [hctakelen]
    rw [Nat.zero_add]
    have h2 : txEntriesO i j
        (((⟨t.key, t.text.take pos, t.props⟩ : Tx) ::
          (⟨freshKey d, t.text.drop pos, pr.getD t.props⟩ : Tx) :: []) ++
            b.children.drop (j + 1)) =
        (((⟨t.key, t.text.take pos, t.props⟩ : Tx), [i, j]) ::
          (((⟨freshKey d, t.text.drop pos, pr.getD t.props⟩ : Tx), [i, j + 1]) ::
            txEntriesO i (j + 2) (b.children.drop (j + 1)))) := by
      show txEntriesO i j ((⟨t.key, t.text.take pos, t.props⟩ : Tx) ::
        (⟨freshKey d, t.text.drop pos, pr.getD t.props⟩ : Tx) :: b.children.drop (j + 1)) = _
      rw [txEntriesO, txEntriesO]
    rw [h2]
    simp [List.append_assoc]
  rw [hentries]
  rw [List.find?_append, List.find?_append, List.find?_append]
  have hnone1 : (docEntriesO 0 (d.take i)).find?
      (fun e => pathLt [i, j] e.2 && !([i, j].isPrefixOf e.2)) = none := by
    rw [List.find?_eq_none]
    intro e he
    cases e with
    | mk t' q =>
      obtain ⟨i', b', j', hb', _, he2⟩ := docEntriesO_mem.mp he
      subst he2
      have hi' : i' < i := by
        have h0 := getElem?_lt hb'
        rw [htakelen] at h0
        exact h0
      simp only [Bool.and_eq_true, Bool.not_eq_true']
      intro hlt
      exfalso
      rw [Nat.zero_add] at hlt
      have h0 := pathLt_pair.mp hlt.1
      omega
  have hnone2 : (txEntriesO i 0 (b.children.take j)).find?
      (fun e => pathLt [i, j] e.2 && !([i, j].isPrefixOf e.2)) = none := by
    rw [List.find?_eq_none]
    intro e he
    cases e with
    | mk t' q =>
      obtain ⟨j', hj', he2⟩ := txEntriesO_mem.mp he
      subst he2
      have hj'' : j' < j := by
        have h0 := getElem?_lt hj'
        rw [hctakelen] at h0
        exact h0
      simp only [Bool.and_eq_true, Bool.not_eq_true']
      intro hlt
      exfalso
      rw [Nat.zero_add] at hlt
      have h0 := pathLt_pair.mp hlt.1
      omega
  rw [hnone1, hnone2]
  simp only [Option.none_or]
  rw [List.find?_cons_of_neg, List.find?_cons_of_pos]
  · simp
  · simp only [Bool.and_eq_true, Bool.not_eq_true']
    constructor
    · exact pathLt_pair.mpr (Or.inr ⟨rfl, by omega⟩)
    · simp [List.isPrefixOf]
  · simp only [Bool.and_eq_true, Bool.not_eq_true', not_and]
    intro hcon
    exfalso
    have h0 := pathLt_pair.mp hcon
    omega

theorem splitPointSpec_congr {nk fk pos : Nat} {p q q' : OPt}
    (h : splitPointSpec nk fk pos p q)
    (hk : q'.key = q.key) (ho : q'.offset = q.offset) :
    splitPointSpec nk fk pos p q' := by
  unfold splitPointSpec at *
  rw [hk, ho]
  exact h

/-- C6: for `splitNode(path, position)` on a text node under key
uniqueness, every selection point whose key is the split node's key and
whose offset is at or after the position is relocated to the freshly
keyed successor node with its offset reduced by the position; points with
offset strictly before the position, and points on other nodes, keep
their key and offset — anchor and focus independently. -/
theorem splitNode_point_relocation
    {v : OValue} {i j pos : Nat} {pr : Option Nat} {b : Blk} {t0 : Tx}
    {r : ORg} {v' : OValue}
    (hn : (allKeys v.doc).Nodup)
    (hb : v.doc[i]? = some b) (ht : b.children[j]? = some t0)
    (_hpos : pos ≤ t0.text.length)
    (hsel : v.selection = some r)
    (hv : valueSplitNode v [i, j] pos pr = some v') :
    ∃ r', v'.selection = some r' ∧
      splitPointSpec t0.key (freshKey v.doc) pos r.anchor r'.anchor ∧
      splitPointSpec t0.key (freshKey v.doc) pos r.focus r'.focus := by
  have hnode : getNodeO v.doc [i, j] = some (.text t0) := by
    simp [getNodeO, hb, ht]
  unfold valueSplitNode at hv
  rw [hnode] at hv
  simp only [Option.bind_eq_bind, Option.some_bind, Option.bind_eq_some] at hv
  obtain ⟨d2, hd2, hmap⟩ := hv
  have hnext := splitNode_next_text hn hb ht hd2
  obtain ⟨hdoc, hsel2⟩ := mapRangesE_selection hmap
  rcases hsel2 with ⟨hnone, _⟩ | ⟨r2, o, hr2, hfo, hv'sel⟩
  · simp [hsel] at hnone
  · simp only [hsel, Option.some.injEq] at hr2
    subst hr2
    simp only [ONode.nkey] at hfo
    rw [hnext] at hfo
    have ho := (Option.some.inj hfo).symm
    subst ho
    simp only [Option.map_some'] at hv'sel
    clear hfo hmap hnext hnode hn hb ht hd2 hdoc hsel
    cases hbwd : rangeBwd r with
    | false =>
      rw [hbwd] at hv'sel
      simp only [Bool.false_eq_true, if_false] at hv'sel
      by_cases hc1 : t0.key = r.anchor.key ∧ pos ≤ r.anchor.offset <;>
        by_cases hc2 : t0.key = r.focus.key ∧ pos ≤ r.focus.offset
      · rw [if_pos hc1, if_pos hc2] at hv'sel
        refine ⟨_, hv'sel,
          splitPointSpec_congr ?_
            ((resolveWrap_key_offset d2 r _).1.1) ((resolveWrap_key_offset d2 r _).1.2),
          splitPointSpec_congr ?_
            ((resolveWrap_key_offset d2 r _).2.1) ((resolveWrap_key_offset d2 r _).2.2)⟩
        · exact ⟨fun hk hoff => ⟨rfl, rfl⟩,
            fun hk hoff => absurd hoff (Nat.not_lt.mpr hc1.2),
            fun hk => absurd hc1.1.symm hk⟩
        · exact ⟨fun hk hoff => ⟨rfl, rfl⟩,
            fun hk hoff => absurd hoff (Nat.not_lt.mpr hc2.2),
            fun hk => absurd hc2.1.symm hk⟩
      · rw [if_pos hc1, if_neg hc2] at hv'sel
        refine ⟨_, hv'sel,
          splitPointSpec_congr ?_
            ((resolveWrap_key_offset d2 r _).1.1) ((resolveWrap_key_offset d2 r _).1.2),
          splitPointSpec_congr ?_
            ((resolveWrap_key_offset d2 r _).2.1) ((resolveWrap_key_offset d2 r _).2.2)⟩
        · exact ⟨fun hk hoff => ⟨rfl, rfl⟩,
            fun hk hoff => absurd hoff (Nat.not_lt.mpr hc1.2),
            fun hk => absurd hc1.1.symm hk⟩
        · exact ⟨fun hk hoff => absurd ⟨hk.symm, hoff⟩ hc2,
            fun hk hoff => ⟨rfl, rfl⟩,
            fun hk => ⟨rfl, rfl⟩⟩
      · rw [if_neg hc1, if_pos hc2] at hv'sel
        refine ⟨_, hv'sel,
          splitPointSpec_congr ?_
            ((resolveWrap_key_offset d2 r _).1.1) ((resolveWrap_key_offset d2 r _).1.2),
          splitPointSpec_congr ?_
            ((resolveWrap_key_offset d2 r _).2.1) ((resolveWrap_key_offset d2 r _).2.2)⟩
        · exact ⟨fun hk hoff => absurd ⟨hk.symm, hoff⟩ hc1,
            fun hk hoff => ⟨rfl, rfl⟩,
            fun hk => ⟨rfl, rfl⟩⟩
        · exact ⟨fun hk hoff => ⟨rfl, rfl⟩,
            fun hk hoff => absurd hoff (Nat.not_lt.mpr hc2.2),
            fun hk => absurd hc2.1.symm hk⟩
      · rw [if_neg hc1, if_neg hc2] at hv'sel
        refine ⟨_, hv'sel,
          splitPointSpec_congr ?_
            ((resolveWrap_key_offset d2 r _).1.1) ((resolveWrap_key_offset d2 r _).1.2),
          splitPointSpec_congr ?_
            ((resolveWrap_key_offset d2 r _).2.1) ((resolveWrap_key_offset d2 r _).2.2)⟩
        · exact ⟨fun hk hoff => absurd ⟨hk.symm, hoff⟩ hc1,
            fun hk hoff => ⟨rfl, rfl⟩,
            fun hk => ⟨rfl, rfl⟩⟩
        · exact ⟨fun hk hoff => absurd ⟨hk.symm, hoff⟩ hc2,
            fun hk hoff => ⟨rfl, rfl⟩,
            fun hk => ⟨rfl, rfl⟩⟩
    | true =>
      rw [hbwd] at hv'sel
      simp only [if_true] at hv'sel
      by_cases hc1 : t0.key = r.focus.key ∧ pos ≤ r.focus.offset <;>
        by_cases hc2 : t0.key = r.anchor.key ∧ pos ≤ r.anchor.offset
      · rw [if_pos hc1, if_pos hc2] at hv'sel
        refine ⟨_, hv'sel,
          splitPointSpec_congr ?_
            ((resolveWrap_key_offset d2 r _).1.1) ((resolveWrap_key_offset d2 r _).1.2),
          splitPointSpec_congr ?_
            ((resolveWrap_key_offset d2 r _).2.1) ((resolveWrap_key_offset d2 r _).2.2)⟩
        · exact ⟨fun hk hoff => ⟨rfl, rfl⟩,
            fun hk hoff => absurd hoff (Nat.not_lt.mpr hc2.2),
            fun hk => absurd hc2.1.symm hk⟩
        · exact ⟨fun hk hoff => ⟨rfl, rfl⟩,
            fun hk hoff => absurd hoff (Nat.not_lt.mpr hc1.2),
            fun hk => absurd hc1.1.symm hk⟩
      · rw [if_pos hc1, if_neg hc2] at hv'sel
        refine ⟨_, hv'sel,
          splitPointSpec_congr ?_
            ((resolveWrap_key_offset d2 r _).1.1) ((resolveWrap_key_offset d2 r _).1.2),
          splitPointSpec_congr ?_
            ((resolveWrap_key_offset d2 r _).2.1) ((resolveWrap_key_offset d2 r _).2.2)⟩
        · exact ⟨fun hk hoff => absurd ⟨hk.symm, hoff⟩ hc2,
            fun hk hoff => ⟨rfl, rfl⟩,
            fun hk => ⟨rfl, rfl⟩⟩
        · exact ⟨fun hk hoff => ⟨rfl, rfl⟩,
            fun hk hoff => absurd hoff (Nat.not_lt.mpr hc1.2),
            fun hk => absurd hc1.1.symm hk⟩
      · rw [if_neg hc1, if_pos hc2] at hv'sel
        refine ⟨_, hv'sel,
          splitPointSpec_congr ?_
            ((resolveWrap_key_offset d2 r _).1.1) ((resolveWrap_key_offset d2 r _).1.2),
          splitPointSpec_congr ?_
            ((resolveWrap_key_offset d2 r _).2.1) ((resolveWrap_key_offset d2 r _).2.2)⟩
        · exact ⟨fun hk hoff => ⟨rfl, rfl⟩,
            fun hk hoff => absurd hoff (Nat.not_lt.mpr hc2.2),
            fun hk => absurd hc2.1.symm hk⟩
        · exact ⟨fun hk hoff => absurd ⟨hk.symm, hoff⟩ hc1,
            fun hk hoff => ⟨rfl, rfl⟩,
            fun hk => ⟨rfl, rfl⟩⟩
      · rw [if_neg hc1, if_neg hc2] at hv'sel
        refine ⟨_, hv'sel,
          splitPointSpec_congr ?_
            ((resolveWrap_key_offset d2 r _).1.1) ((resolveWrap_key_offset d2 r _).1.2),
          splitPointSpec_congr ?_
            ((resolveWrap_key_offset d2 r _).2.1) ((resolveWrap_key_offset d2 r _).2.2)⟩
        · exact ⟨fun hk hoff => absurd ⟨hk.symm, hoff⟩ hc2,
            fun hk hoff => ⟨rfl, rfl⟩,
            fun hk => ⟨rfl, rfl⟩⟩
        · exact ⟨fun hk hoff => absurd ⟨hk.symm, hoff⟩ hc1,
            fun hk hoff => ⟨rfl, rfl⟩,
            fun hk => ⟨rfl, rfl⟩⟩

/-- Witness for C6: splitting the text keyed 1 ("hello") at position 2
relocates the anchor (offset 5) and the focus (offset 2) to the fresh
successor key 11 with offsets 3 and 0. -/
theorem splitNode_point_relocation_witness :
    ∃ r', (⟨[⟨10, 0, [⟨1, ['h', 'e'], 0⟩, ⟨11, ['l', 'l', 'o'], 0⟩, ⟨2, ['x'], 0⟩]⟩],
        some ⟨⟨11, some [0, 1], 3⟩, ⟨11, some [0, 1], 0⟩⟩, []⟩ : OValue).selection = some r' ∧
      splitPointSpec 1 (freshKey wVal.doc) 2 ⟨1, some [0, 0], 5⟩ r'.anchor ∧
      splitPointSpec 1 (freshKey wVal.doc) 2 ⟨1, some [0, 0], 2⟩ r'.focus :=
  @splitNode_point_relocation wVal 0 0 2 none
    ⟨10, 0, [⟨1, ['h', 'e', 'l', 'l', 'o'], 0⟩, ⟨2, ['x'], 0⟩]⟩
    ⟨1, ['h', 'e', 'l', 'l', 'o'], 0⟩
    ⟨⟨1, some [0, 0], 5⟩, ⟨1, some [0, 0], 2⟩⟩
    ⟨[⟨10, 0, [⟨1, ['h', 'e'], 0⟩, ⟨11, ['l', 'l', 'o'], 0⟩, ⟨2, ['x'], 0⟩]⟩],
      some ⟨⟨11, some [0, 1], 3⟩, ⟨11, some [0, 1], 0⟩⟩, []⟩
    (by decide) (by decide) (by decide) (by decide) (by decide) (by decide)

/-- A text sitting outside the removed node survives `removeNode`. -/
theorem textKey_mem_removeNode {d d' : ODoc} {p : List Nat}
    {i' j' : Nat} {b' : Blk} {pt : Tx}
    (hrm : docRemoveNode d p = some d')
    (hb' : d[i']? = some b') (hpt : b'.children[j']? = some pt)
    (hcond : match p with
      | [i] => i' ≠ i
      | [i, j] => i' ≠ i ∨ (i' = i ∧ j' ≠ j)
      | _ => False) :
    pt.key ∈ textKeys d' := by
  match p with
  | [] | _ :: _ :: _ :: _ => exact absurd hcond (by simp)
  | [i] =>
    unfold docRemoveNode at hrm
    simp only [Option.bind_eq_bind, Option.bind_eq_some, Option.some.injEq] at hrm
    obtain ⟨_, _, hd'⟩ := hrm
    subst hd'
    have hbmem : b' ∈ d.take i ++ d.drop (i + 1) := by
      rcases Nat.lt_or_ge i' i with hlt | hge
      · have hx : (d.take i)[i']? = some b' := by
          rw [List.getElem?_take]
          simp [hlt, hb']
        exact List.mem_append_left _ (List.getElem?_mem hx)
      · have hgt : i < i' := by
          rcases Nat.lt_or_ge i i' with h1 | h1
          · exact h1
          · exact absurd (Nat.le_antisymm hge h1) (Ne.symm hcond)
        have hx : (d.drop (i + 1))[i' - (i + 1)]? = some b' := by
          rw [List.getElem?_drop]
          have he : i + 1 + (i' - (i + 1)) = i' := by omega
          rw [he]
          exact hb'
        exact List.mem_append_right _ (List.getElem?_mem hx)
    simp only [textKeys, List.mem_flatMap]
    exact ⟨b', hbmem, List.mem_map_of_mem _ (List.getElem?_mem hpt)⟩
  | [i, j] =>
    unfold docRemoveNode at hrm
    simp only [Option.bind_eq_bind, Option.bind_eq_some, Option.some.injEq] at hrm
    obtain ⟨b, hb, t, ht, hd'⟩ := hrm
    subst hd'
    rcases Nat.decEq i' i with hne | heq
    · have hbmem : b' ∈ d.take i ++
          [{ b with children := b.children.take j ++ b.children.drop (j + 1) }] ++
            d.drop (i + 1) := by
        rcases Nat.lt_or_ge i' i with hlt | hge
        · have hx : (d.take i)[i']? = some b' := by
            rw [List.getElem?_take]
            simp [hlt, hb']
          exact List.mem_append_left _ (List.mem_append_left _ (List.getElem?_mem hx))
        · have hgt : i < i' := by omega
          have hx : (d.drop (i + 1))[i' - (i + 1)]? = some b' := by
            rw [List.getElem?_drop]
            have he : i + 1 + (i' - (i + 1)) = i' := by omega
            rw [he]
            exact hb'
          exact List.mem_append_right _ (List.getElem?_mem hx)
      simp only [textKeys, List.mem_flatMap]
      exact ⟨b', hbmem, List.mem_map_of_mem _ (List.getElem?_mem hpt)⟩
    · subst heq
      rw [hb'] at hb
      have hbb : b = b' := Option.some.inj hb.symm
      subst hbb
      have hj' : j' ≠ j := by
        rcases hcond with hcond | hcond
        · exact absurd rfl hcond
        · exact hcond.2
      have hptmem : pt ∈ b.children.take j ++ b.children.drop (j + 1) := by
        rcases Nat.lt_or_ge j' j with hlt | hge
        · have hx : (b.children.take j)[j']? = some pt := by
            rw [List.getElem?_take]
            simp [hlt, hpt]
          exact List.mem_append_left _ (List.getElem?_mem hx)
        · have hgt : j < j' := by omega
          have hx : (b.children.drop (j + 1))[j' - (j + 1)]? = some pt := by
            rw [List.getElem?_drop]
            have he : j + 1 + (j' - (j + 1)) = j' := by omega
            rw [he]
            exact hpt
          exact List.mem_append_right _ (List.getElem?_mem hx)
      simp only [textKeys, List.mem_flatMap]
      refine ⟨{ b with children := b.children.take j ++ b.children.drop (j + 1) }, ?_, ?_⟩
      · exact List.mem_append_left _ (List.mem_append_right _ (List.mem_singleton.mpr rfl))
      · exact List.mem_map_of_mem _ hptmem

/-- The previous text found for `removeNode`'s repair lies outside the
removed subtree and so survives the removal. -/
theorem removeNode_prev_survives {d : ODoc} {p : List Nat} {node : ONode}
    {d' : ODoc} {pt : Tx} {pp : List Nat}
    (hn : (allKeys d).Nodup)
    (hnode : getNodeO d p = some node)
    (hprev : getPrevTextByKey d (firstTextKey node) = some (pt, pp))
    (hrm : docRemoveNode d p = some d') :
    pt.key ∈ textKeys d' := by
  unfold getPrevTextByKey at hprev
  match p with
  | [] | _ :: _ :: _ :: _ => simp [getNodeO] at hnode
  | [i] =>
    simp only [getNodeO, Option.map_eq_some'] at hnode
    obtain ⟨b, hb, hnd⟩ := hnode
    subst hnd
    have hfkp : ∃ fp, findKeyPath d (firstTextKey (ONode.block b)) = some fp ∧
        (fp = [i] ∨ fp = [i, 0]) := by
      rcases hcs : b.children with _ | ⟨t0, rest⟩
      · refine ⟨[i], ?_, Or.inl rfl⟩
        have h0 : firstTextKey (ONode.block b) = b.key := by
          simp [firstTextKey, hcs]
        rw [h0]
        exact findKeyPath_block hn hb
      · refine ⟨[i, 0], ?_, Or.inr rfl⟩
        have h0 : firstTextKey (ONode.block b) = t0.key := by
          simp [firstTextKey, hcs]
        rw [h0]
        exact findKeyPath_text hn hb (by rw [hcs]; simp)
    obtain ⟨fp, hfp, hshape⟩ := hfkp
    rw [hfp] at hprev
    simp only [Option.bind_eq_bind, Option.some_bind] at hprev
    have hmem : (pt, pp) ∈ docEntriesO 0 d := by
      have h0 := List.mem_of_find?_eq_some hprev
      rwa [List.mem_reverse] at h0
    have hpred := List.find?_some hprev
    simp only at hpred
    obtain ⟨i', b', j', hb', hpt', hpp⟩ := docEntriesO_mem.mp hmem
    subst hpp
    simp only [Nat.zero_add] at hpred
    have hii : i' ≠ i := by
      rcases hshape with rfl | rfl
      · have h0 := pathLt_pair_single.mp hpred
        omega
      · have h0 := pathLt_pair.mp hpred
        rcases h0 with h0 | ⟨h0, h1⟩
        · omega
        · omega
    exact textKey_mem_removeNode hrm hb' hpt' hii
  | [i, j] =>
    simp only [getNodeO, Option.map_eq_some'] at hnode
    obtain ⟨t, hbt, hnd⟩ := hnode
    subst hnd
    rw [Option.bind_eq_some] at hbt
    obtain ⟨b, hb, ht⟩ := hbt
    have h0 : firstTextKey (ONode.text t) = t.key := rfl
    rw [h0, findKeyPath_text hn hb ht] at hprev
    simp only [Option.bind_eq_bind, Option.some_bind] at hprev
    have hmem : (pt, pp) ∈ docEntriesO 0 d := by
      have h1 := List.mem_of_find?_eq_some hprev
      rwa [List.mem_reverse] at h1
    have hpred := List.find?_some hprev
    simp only at hpred
    obtain ⟨i', b', j', hb', hpt', hpp⟩ := docEntriesO_mem.mp hmem
    subst hpp
    simp only [Nat.zero_add] at hpred
    have h1 := pathLt_pair.mp hpred
    refine textKey_mem_removeNode hrm hb' hpt' ?_
    rcases h1 with h1 | ⟨h1, h2⟩
    · exact Or.inl (by omega)
    · exact Or.inr ⟨h1, by omega⟩

/-- The next text found for `removeNode`'s repair lies outside the
removed subtree and so survives the removal. -/
theorem removeNode_next_survives {d : ODoc} {p : List Nat} {node : ONode}
    {d' : ODoc} {nt : Tx} {np : List Nat}
    (hn : (allKeys d).Nodup)
    (hnode : getNodeO d p = some node)
    (hnext : getNextTextByKey d (lastTextKey node) = some (nt, np))
    (hrm : docRemoveNode d p = some d') :
    nt.key ∈ textKeys d' := by
  unfold getNextTextByKey at hnext
  match p with
  | [] | _ :: _ :: _ :: _ => simp [getNodeO] at hnode
  | [i] =>
    simp only [getNodeO, Option.map_eq_some'] at hnode
    obtain ⟨b, hb, hnd⟩ := hnode
    subst hnd
    have hfkp : ∃ fp, findKeyPath d (lastTextKey (ONode.block b)) = some fp ∧
        (fp = [i] ∨ ∃ jj, fp = [i, jj] ∧ jj + 1 = b.children.length) := by
      rcases hcs : b.children.getLast? with _ | t0
      · refine ⟨[i], ?_, Or.inl rfl⟩
        have h0 : lastTextKey (ONode.block b) = b.key := by
          simp [lastTextKey, hcs]
        rw [h0]
        exact findKeyPath_block hn hb
      · have hlen : b.children.length ≠ 0 := by
          intro hc
          have hnil : b.children = [] := List.length_eq_zero.mp hc
          rw [hnil] at hcs
          simp at hcs
        refine ⟨[i, b.children.length - 1], ?_, Or.inr
          ⟨b.children.length - 1, rfl, by omega⟩⟩
        have h0 : lastTextKey (ONode.block b) = t0.key := by
          simp [lastTextKey, hcs]
        rw [h0]
        refine findKeyPath_text hn hb ?_
        rw [← List.getLast?_eq_getElem?]
        exact hcs
    obtain ⟨fp, hfp, hshape⟩ := hfkp
    rw [hfp] at hnext
    simp only [Option.bind_eq_bind, Option.some_bind] at hnext
    have hmem : (nt, np) ∈ docEntriesO 0 d := List.mem_of_find?_eq_some hnext
    have hpred := List.find?_some hnext
    simp only [Bool.and_eq_true, Bool.not_eq_true'] at hpred
    obtain ⟨i', b', j', hb', hpt', hpp⟩ := docEntriesO_mem.mp hmem
    subst hpp
    simp only [Nat.zero_add] at hpred
    have hii : i' ≠ i := by
      rcases hshape with rfl | ⟨jj, rfl, hjj⟩
      · intro hc
        subst hc
        have h1 := hpred.2
        rw [prefix_single_pair.mpr rfl] at h1
        simp at h1
      · have h0 := pathLt_pair.mp hpred.1
        have hjlen : j' < b'.children.length := getElem?_lt hpt'
        rcases h0 with h0 | ⟨h0, h1⟩
        · omega
        · subst h0
          rw [hb] at hb'
          have hbb : b = b' := Option.some.inj hb'
          subst hbb
          omega
    exact textKey_mem_removeNode hrm hb' hpt' hii
  | [i, j] =>
    simp only [getNodeO, Option.map_eq_some'] at hnode
    obtain ⟨t, hbt, hnd⟩ := hnode
    subst hnd
    rw [Option.bind_eq_some] at hbt
    obtain ⟨b, hb, ht⟩ := hbt
    have h0 : lastTextKey (ONode.text t) = t.key := rfl
    rw [h0, findKeyPath_text hn hb ht] at hnext
    simp only [Option.bind_eq_bind, Option.some_bind] at hnext
    have hmem : (nt, np) ∈ docEntriesO 0 d := List.mem_of_find?_eq_some hnext
    have hpred := List.find?_some hnext
    simp only [Bool.and_eq_true, Bool.not_eq_true'] at hpred
    obtain ⟨i', b', j', hb', hpt', hpp⟩ := docEntriesO_mem.mp hmem
    subst hpp
    simp only [Nat.zero_add] at hpred
    have h1 := pathLt_pair.mp hpred.1
    refine textKey_mem_removeNode hrm hb' hpt' ?_
    rcases h1 with h1 | ⟨h1, h2⟩
    · exact Or.inl (by omega)
    · exact Or.inr ⟨h1.symm, by omega⟩

theorem removeRelocSpec_congr {node : ONode} {k o : Nat} {p q q' : OPt}
    (h : removeRelocSpec node k o p q)
    (hk : q'.key = q.key) (ho : q'.offset = q.offset) :
    removeRelocSpec node k o p q' := by
  unfold removeRelocSpec at *
  rw [hk, ho]
  exact h

/-- C7: for `removeNode(path)`, each selection point (anchor and focus
independently) whose key lies inside the removed subtree is relocated to
the nearest surviving text: to the end of the preceding text if one
exists (and that text survives the removal), else to offset 0 of the
following text (which also survives), else the whole range becomes
unset; points outside the removed subtree keep their key and offset. -/
theorem removeNode_point_relocation
    {v : OValue} {path : List Nat} {node : ONode} {r : ORg} {v' : OValue}
    (hn : (allKeys v.doc).Nodup)
    (hnode : getNodeO v.doc path = some node)
    (hsel : v.selection = some r)
    (hv : valueRemoveNode v path = some v') :
    (∀ (pt : Tx) (pp : List Nat),
        getPrevTextByKey v.doc (firstTextKey node) = some (pt, pp) →
        pt.key ∈ textKeys v'.doc ∧
        ∃ r', v'.selection = some r' ∧
          removeRelocSpec node pt.key pt.text.length r.anchor r'.anchor ∧
          removeRelocSpec node pt.key pt.text.length r.focus r'.focus) ∧
    (getPrevTextByKey v.doc (firstTextKey node) = none →
      ∀ (nt : Tx) (np : List Nat),
        getNextTextByKey v.doc (lastTextKey node) = some (nt, np) →
        nt.key ∈ textKeys v'.doc ∧
        ∃ r', v'.selection = some r' ∧
          removeRelocSpec node nt.key 0 r.anchor r'.anchor ∧
          removeRelocSpec node nt.key 0 r.focus r'.focus) ∧
    (getPrevTextByKey v.doc (firstTextKey node) = none →
      getNextTextByKey v.doc (lastTextKey node) = none →
      (hasNodeKey node r.anchor.key = true ∨ hasNodeKey node r.focus.key = true) →
      v'.selection = none) := by
  unfold valueRemoveNode at hv
  rw [hnode] at hv
  simp only [Option.bind_eq_bind, Option.some_bind] at hv
  rw [Option.bind_eq_some] at hv
  obtain ⟨d2, hd2, hmap⟩ := hv
  obtain ⟨hdoc, hsel2⟩ := mapRangesE_selection hmap
  rcases hsel2 with ⟨hnone, _⟩ | ⟨r2, o, hr2, hfo, hv'sel⟩
  · simp [hsel] at hnone
  · simp only [hsel, Option.some.injEq] at hr2
    subst hr2
    refine ⟨?_, ?_, ?_⟩
    · intro pt pp hprev
      have hsurv := removeNode_prev_survives hn hnode hprev hd2
      refine ⟨by rw [hdoc]; exact hsurv, ?_⟩
      have hfo1 := hfo
      simp only [hprev] at hfo1
      cases hA : hasNodeKey node r.anchor.key <;>
        cases hF : hasNodeKey node r.focus.key <;>
        simp [hA, hF] at hfo1 <;>
        subst hfo1 <;>
        simp only [Option.map_some'] at hv'sel <;>
        refine ⟨_, hv'sel, ?_, ?_⟩
      · exact removeRelocSpec_congr
          ⟨(fun h => nomatch hA.symm.trans h), fun _ => ⟨rfl, rfl⟩⟩
          ((resolveWrap_key_offset _ r _).1.1) ((resolveWrap_key_offset _ r _).1.2)
      · exact removeRelocSpec_congr
          ⟨(fun h => nomatch hF.symm.trans h), fun _ => ⟨rfl, rfl⟩⟩
          ((resolveWrap_key_offset _ r _).2.1) ((resolveWrap_key_offset _ r _).2.2)
      · exact removeRelocSpec_congr
          ⟨(fun h => nomatch hA.symm.trans h), fun _ => ⟨rfl, rfl⟩⟩
          ((resolveWrap_key_offset _ r _).1.1) ((resolveWrap_key_offset _ r _).1.2)
      · exact removeRelocSpec_congr
          ⟨fun _ => ⟨rfl, rfl⟩, fun h => nomatch hF.symm.trans h⟩
          ((resolveWrap_key_offset _ r _).2.1) ((resolveWrap_key_offset _ r _).2.2)
      · exact removeRelocSpec_congr
          ⟨fun _ => ⟨rfl, rfl⟩, fun h => nomatch hA.symm.trans h⟩
          ((resolveWrap_key_offset _ r _).1.1) ((resolveWrap_key_offset _ r _).1.2)
      · exact removeRelocSpec_congr
          ⟨(fun h => nomatch hF.symm.trans h), fun _ => ⟨rfl, rfl⟩⟩
          ((resolveWrap_key_offset _ r _).2.1) ((resolveWrap_key_offset _ r _).2.2)
      · exact removeRelocSpec_congr
          ⟨fun _ => ⟨rfl, rfl⟩, fun h => nomatch hA.symm.trans h⟩
          ((resolveWrap_key_offset _ r _).1.1) ((resolveWrap_key_offset _ r _).1.2)
      · exact removeRelocSpec_congr
          ⟨fun _ => ⟨rfl, rfl⟩, fun h => nomatch hF.symm.trans h⟩
          ((resolveWrap_key_offset _ r _).2.1) ((resolveWrap_key_offset _ r _).2.2)
    · intro hprevN nt np hnextS
      have hsurv := removeNode_next_survives hn hnode hnextS hd2
      refine ⟨by rw [hdoc]; exact hsurv, ?_⟩
      have hfo1 := hfo
      simp only [hprevN, hnextS] at hfo1
      cases hA : hasNodeKey node r.anchor.key <;>
        cases hF : hasNodeKey node r.focus.key <;>
        simp [hA, hF] at hfo1 <;>
        subst hfo1 <;>
        simp only [Option.map_some'] at hv'sel <;>
        refine ⟨_, hv'sel, ?_, ?_⟩
      · exact removeRelocSpec_congr
          ⟨(fun h => nomatch hA.symm.trans h), fun _ => ⟨rfl, rfl⟩⟩
          ((resolveWrap_key_offset _ r _).1.1) ((resolveWrap_key_offset _ r _).1.2)
      · exact removeRelocSpec_congr
          ⟨(fun h => nomatch hF.symm.trans h), fun _ => ⟨rfl, rfl⟩⟩
          ((resolveWrap_key_offset _ r _).2.1) ((resolveWrap_key_offset _ r _).2.2)
      · exact removeRelocSpec_congr
          ⟨(fun h => nomatch hA.symm.trans h), fun _ => ⟨rfl, rfl⟩⟩
          ((resolveWrap_key_offset _ r _).1.1) ((resolveWrap_key_offset _ r _).1.2)
      · exact removeRelocSpec_congr
          ⟨fun _ => ⟨rfl, rfl⟩, fun h => nomatch hF.symm.trans h⟩
          ((resolveWrap_key_offset _ r _).2.1) ((resolveWrap_key_offset _ r _).2.2)
      · exact removeRelocSpec_congr
          ⟨fun _ => ⟨rfl, rfl⟩, fun h => nomatch hA.symm.trans h⟩
          ((resolveWrap_key_offset _ r _).1.1) ((resolveWrap_key_offset _ r _).1.2)
      · exact removeRelocSpec_congr
          ⟨(fun h => nomatch hF.symm.trans h), fun _ => ⟨rfl, rfl⟩⟩
          ((resolveWrap_key_offset _ r _).2.1) ((resolveWrap_key_offset _ r _).2.2)
      · exact removeRelocSpec_congr
          ⟨fun _ => ⟨rfl, rfl⟩, fun h => nomatch hA.symm.trans h⟩
          ((resolveWrap_key_offset _ r _).1.1) ((resolveWrap_key_offset _ r _).1.2)
      · exact removeRelocSpec_congr
          ⟨fun _ => ⟨rfl, rfl⟩, fun h => nomatch hF.symm.trans h⟩
          ((resolveWrap_key_offset _ r _).2.1) ((resolveWrap_key_offset _ r _).2.2)
    · intro hprevN hnextN hor
      have hfo1 := hfo
      simp only [hprevN, hnextN] at hfo1
      cases hA : hasNodeKey node r.anchor.key <;>
        cases hF : hasNodeKey node r.focus.key <;>
        simp [hA, hF] at hfo1
      · rcases hor with h | h
        · exact nomatch hA.symm.trans h
        · exact nomatch hF.symm.trans h
      · subst hfo1
        simpa using hv'sel
      · subst hfo1
        simpa using hv'sel
      · subst hfo1
        simpa using hv'sel

/-- Witness for C7: removing the text keyed 2 at `[0, 1]` finds the
preceding text keyed 1 ("hello"); the selection, which lies entirely on
key 1 outside the removed subtree, keeps its keys and offsets. -/
theorem removeNode_point_relocation_witness :
    (⟨1, ['h', 'e', 'l', 'l', 'o'], 0⟩ : Tx).key ∈
      textKeys ([⟨10, 0, [⟨1, ['h', 'e', 'l', 'l', 'o'], 0⟩]⟩] : ODoc) ∧
    ∃ r', (⟨[⟨10, 0, [⟨1, ['h', 'e', 'l', 'l', 'o'], 0⟩]⟩],
        some ⟨⟨1, some [0, 0], 5⟩, ⟨1, some [0, 0], 2⟩⟩, []⟩ : OValue).selection = some r' ∧
      removeRelocSpec (.text ⟨2, ['x'], 0⟩) 1 5 ⟨1, some [0, 0], 5⟩ r'.anchor ∧
      removeRelocSpec (.text ⟨2, ['x'], 0⟩) 1 5 ⟨1, some [0, 0], 2⟩ r'.focus :=
  (@removeNode_point_relocation wVal [0, 1] (.text ⟨2, ['x'], 0⟩)
    ⟨⟨1, some [0, 0], 5⟩, ⟨1, some [0, 0], 2⟩⟩
    ⟨[⟨10, 0, [⟨1, ['h', 'e', 'l', 'l', 'o'], 0⟩]⟩],
      some ⟨⟨1, some [0, 0], 5⟩, ⟨1, some [0, 0], 2⟩⟩, []⟩
    (by decide) (by decide) (by decide) (by decide)).1
    ⟨1, ['h', 'e', 'l', 'l', 'o'], 0⟩ [0, 0] (by decide)

/-- A successful `getNextText` lookup returns a text of the document. -/
theorem getNextTextByKey_mem {d : ODoc} {k : Nat} {e : Tx × List Nat}
    (h : getNextTextByKey d k = some e) : e.1.key ∈ textKeys d := by
  unfold getNextTextByKey at h
  simp only [Option.bind_eq_bind, Option.bind_eq_some] at h
  obtain ⟨fp, _, hfind⟩ := h
  exact mem_textKeys_of_entry (List.mem_of_find?_eq_some hfind)

/-- A successful `getPreviousText` lookup returns a text of the document. -/
theorem getPrevTextByKey_mem {d : ODoc} {k : Nat} {e : Tx × List Nat}
    (h : getPrevTextByKey d k = some e) : e.1.key ∈ textKeys d := by
  unfold getPrevTextByKey at h
  simp only [Option.bind_eq_bind, Option.bind_eq_some] at h
  obtain ⟨fp, _, hfind⟩ := h
  have hm := List.mem_of_find?_eq_some hfind
  rw [List.mem_reverse] at hm
  exact mem_textKeys_of_entry hm

/-- A text key outside the removed subtree survives `document.removeNode`. -/
theorem textKeys_removeNode_outside {d d' : ODoc} {p : List Nat}
    {node : ONode} {k : Nat}
    (hnode : getNodeO d p = some node)
    (hrm : docRemoveNode d p = some d')
    (hk : k ∈ textKeys d) (hout : hasNodeKey node k = false) :
    k ∈ textKeys d' := by
  obtain ⟨i', b', j', t, hb', ht, hkey⟩ := mem_textKeys_iff.mp hk
  subst hkey
  match p with
  | [] | _ :: _ :: _ :: _ => simp [getNodeO] at hnode
  | [i] =>
    simp only [getNodeO, Option.map_eq_some'] at hnode
    obtain ⟨b, hb, hnd⟩ := hnode
    subst hnd
    refine textKey_mem_removeNode hrm hb' ht ?_
    intro hc
    subst hc
    rw [hb] at hb'
    have hbb : b = b' := Option.some.inj hb'
    subst hbb
    simp only [hasNodeKey, Bool.or_eq_false_iff, List.any_eq_false] at hout
    exact hout.2 t (List.getElem?_mem ht) (by simp)
  | [i, j] =>
    simp only [getNodeO, Option.map_eq_some'] at hnode
    obtain ⟨t0, hbt, hnd⟩ := hnode
    subst hnd
    rw [Option.bind_eq_some] at hbt
    obtain ⟨b, hb, ht0⟩ := hbt
    refine textKey_mem_removeNode hrm hb' ht ?_
    by_cases hci : i' = i
    · subst hci
      refine Or.inr ⟨rfl, ?_⟩
      intro hcj
      subst hcj
      rw [hb] at hb'
      have hbb : b = b' := Option.some.inj hb'
      subst hbb
      rw [ht0] at ht
      have htt : t0 = t := Option.some.inj ht
      subst htt
      simp [hasNodeKey] at hout
    · exact Or.inl hci

/-- `document.removeNode` splits the key multiset of the document into
the removed node's keys and the remaining document's keys. -/
theorem docRemoveNode_node_keys {d d' : ODoc} {p : List Nat} {node : ONode}
    (hnode : getNodeO d p = some node) (hrm : docRemoveNode d p = some d') :
    (allKeys d).Perm (node.keys ++ allKeys d') ∧
      (textKeys d).Perm (node.tkeys ++ textKeys d') := by
  match p with
  | [] | _ :: _ :: _ :: _ => simp [getNodeO] at hnode
  | [i] =>
    simp only [getNodeO, Option.map_eq_some'] at hnode
    obtain ⟨b, hb, hnd⟩ := hnode
    subst hnd
    unfold docRemoveNode at hrm
    simp only [Option.bind_eq_bind, Option.bind_eq_some, Option.some.injEq] at hrm
    obtain ⟨b0, hb0, hd'⟩ := hrm
    subst hd'
    have hd := doc_decomp hb
    constructor
    · rw [List.perm_iff_count]
      intro a
      conv_lhs => rw [hd]
      simp only [allKeys_append, allKeys_cons, ONode.keys, List.count_append,
        List.count_cons]
      split_ifs <;> omega
    · rw [List.perm_iff_count]
      intro a
      conv_lhs => rw [hd]
      simp only [textKeys_append, textKeys_cons, ONode.tkeys, List.count_append,
        List.count_cons]
      omega
  | [i, j] =>
    simp only [getNodeO, Option.map_eq_some'] at hnode
    obtain ⟨t0, hbt, hnd⟩ := hnode
    subst hnd
    rw [Option.bind_eq_some] at hbt
    obtain ⟨b, hb, ht0⟩ := hbt
    unfold docRemoveNode at hrm
    simp only [Option.bind_eq_bind, Option.bind_eq_some, Option.some.injEq] at hrm
    obtain ⟨b0, hb0, t1, ht1, hd'⟩ := hrm
    rw [hb] at hb0
    rw [(Option.some.inj hb0).symm] at ht1 hd'
    subst hd'
    have hd := doc_decomp hb
    have hc := doc_decomp ht0
    have hmapsplit : List.map Tx.key b.children =
        List.map Tx.key (b.children.take j) ++
          t0.key :: List.map Tx.key (b.children.drop (j + 1)) := by
      conv_lhs => rw [hc]
      rw [List.map_append, List.map_cons]
    constructor
    · rw [List.perm_iff_count]
      intro a
      conv_lhs => rw [hd]
      simp only [allKeys, ONode.keys, List.flatMap_append, List.flatMap_cons,
        List.flatMap_nil, List.count_append, List.count_cons, List.append_nil,
        List.map_nil, List.count_nil, List.map_append, List.map_cons]
      rw [hmapsplit]
      simp only [List.count_append, List.count_cons]
      split_ifs <;> omega
    · rw [List.perm_iff_count]
      intro a
      conv_lhs => rw [hd]
      simp only [textKeys, ONode.tkeys, List.flatMap_append, List.flatMap_cons,
        List.flatMap_nil, List.count_append, List.count_cons, List.append_nil,
        List.map_nil, List.count_nil, List.map_append, List.map_cons]
      rw [hmapsplit]
      simp only [List.count_append, List.count_cons]
      split_ifs <;> omega

/-- Materialized children carry the consecutive fresh keys. -/
theorem matKids_map_key (base : Nat) (cs : List (List Char × Nat)) :
    (matKids base cs).map Tx.key = List.range' base cs.length := by
  induction cs generalizing base with
  | nil => simp [matKids]
  | cons c rest ih =>
    simp only [matKids, List.map_cons, List.length_cons, List.range'_succ]
    rw [ih]

/-- A materialized node's keys are distinct and at least the base key. -/
theorem materialize_keys_facts (base : Nat) (spec : NodeSpec) :
    ((materialize base spec).keys).Nodup ∧
      ∀ k ∈ (materialize base spec).keys, base ≤ k := by
  cases spec with
  | textS s pr => simp [materialize, ONode.keys]
  | blockS pr cs =>
    simp only [materialize, ONode.keys, matKids_map_key]
    constructor
    · rw [List.nodup_cons]
      constructor
      · intro hc
        rw [List.mem_range'_1] at hc
        omega
      · exact List.nodup_range' _ _
    · intro k hk
      rcases List.mem_cons.mp hk with rfl | hk
      · exact Nat.le_refl _
      · rw [List.mem_range'_1] at hk
        omega

/-- `document.moveNode` permutes the document's keys. -/
theorem docMoveNode_keys {d d' : ODoc} {path newPath : List Nat} {idx : Nat}
    (h : docMoveNode d path newPath idx = some d') :
    (allKeys d').Perm (allKeys d) ∧ (textKeys d').Perm (textKeys d) := by
  unfold docMoveNode at h
  simp only [Option.bind_eq_bind, Option.bind_eq_some] at h
  obtain ⟨node, hnode, d1, hrm, hins⟩ := h
  have hkeys := docRemoveNode_node_keys hnode hrm
  match node, newPath, hins with
  | .block b, [], hins =>
    simp only [Option.some.injEq] at hins
    subst hins
    constructor
    · rw [List.perm_iff_count]
      intro a
      rw [hkeys.1.count_eq a]
      conv_rhs => rw [← List.take_append_drop idx d1]
      simp only [allKeys, ONode.keys, List.flatMap_append, List.flatMap_cons,
        List.flatMap_nil, List.count_append, List.count_cons, List.append_nil,
        List.map_nil, List.count_nil, List.map_append, List.map_cons]
      omega
    · rw [List.perm_iff_count]
      intro a
      rw [hkeys.2.count_eq a]
      conv_rhs => rw [← List.take_append_drop idx d1]
      simp only [textKeys, ONode.tkeys, List.flatMap_append, List.flatMap_cons,
        List.flatMap_nil, List.count_append, List.count_cons, List.append_nil,
        List.map_nil, List.count_nil, List.map_append, List.map_cons]
      omega
  | .text t, [i], hins =>
    simp only [Option.bind_eq_bind, Option.bind_eq_some, Option.some.injEq] at hins
    obtain ⟨b1, hb1, hins⟩ := hins
    subst hins
    have hd1 := doc_decomp hb1
    have hcsplit : List.map Tx.key b1.children =
        List.map Tx.key (b1.children.take idx) ++
          List.map Tx.key (b1.children.drop idx) := by
      rw [← List.map_append, List.take_append_drop]
    constructor
    · rw [List.perm_iff_count]
      intro a
      rw [hkeys.1.count_eq a]
      conv_rhs => rw [hd1]
      simp only [allKeys, ONode.keys, List.flatMap_append, List.flatMap_cons,
        List.flatMap_nil, List.count_append, List.count_cons, List.append_nil,
        List.map_nil, List.count_nil, List.map_append, List.map_cons]
      rw [hcsplit]
      simp only [List.count_append]
      omega
    · rw [List.perm_iff_count]
      intro a
      rw [hkeys.2.count_eq a]
      conv_rhs => rw [hd1]
      simp only [textKeys, ONode.tkeys, List.flatMap_append, List.flatMap_cons,
        List.flatMap_nil, List.count_append, List.count_cons, List.append_nil,
        List.map_nil, List.count_nil, List.map_append, List.map_cons]
      rw [hcsplit]
      simp only [List.count_append]
      omega

/-- `document.insertNode` adds exactly the inserted node's keys. -/
theorem docInsertNode_keys {d d' : ODoc} {p : List Nat} {n : ONode}
    (h : docInsertNode d p n = some d') :
    (allKeys d').Perm (n.keys ++ allKeys d) ∧
      (textKeys d').Perm (n.tkeys ++ textKeys d) := by
  match p, n, h with
  | [i], .block b, h =>
    simp only [docInsertNode, Option.some.injEq] at h
    subst h
    constructor
    · rw [List.perm_iff_count]
      intro a
      conv_rhs => rw [← List.take_append_drop i d]
      simp only [allKeys, ONode.keys, List.flatMap_append, List.flatMap_cons,
        List.flatMap_nil, List.count_append, List.count_cons, List.append_nil,
        List.map_nil, List.count_nil, List.map_append, List.map_cons]
      omega
    · rw [List.perm_iff_count]
      intro a
      conv_rhs => rw [← List.take_append_drop i d]
      simp only [textKeys, ONode.tkeys, List.flatMap_append, List.flatMap_cons,
        List.flatMap_nil, List.count_append, List.count_cons, List.append_nil,
        List.map_nil, List.count_nil, List.map_append, List.map_cons]
      omega
  | [i, j], .text t, h =>
    simp only [docInsertNode, Option.bind_eq_bind, Option.bind_eq_some,
      Option.some.injEq] at h
    obtain ⟨b, hb, hins⟩ := h
    subst hins
    have hd := doc_decomp hb
    have hcsplit : List.map Tx.key b.children =
        List.map Tx.key (b.children.take j) ++
          List.map Tx.key (b.children.drop j) := by
      rw [← List.map_append, List.take_append_drop]
    constructor
    · rw [List.perm_iff_count]
      intro a
      conv_rhs => rw [hd]
      simp only [allKeys, ONode.keys, List.flatMap_append, List.flatMap_cons,
        List.flatMap_nil, List.count_append, List.count_cons, List.append_nil,
        List.map_nil, List.count_nil, List.map_append, List.map_cons]
      rw [hcsplit]
      simp only [List.count_append]
      split_ifs <;> omega
    · rw [List.perm_iff_count]
      intro a
      conv_rhs => rw [hd]
      simp only [textKeys, ONode.tkeys, List.flatMap_append, List.flatMap_cons,
        List.flatMap_nil, List.count_append, List.count_cons, List.append_nil,
        List.map_nil, List.count_nil, List.map_append, List.map_cons]
      rw [hcsplit]
      simp only [List.count_append]
      split_ifs <;> omega

/-- Replacing one text by another with the same key leaves the key
multisets unchanged (the splice shape shared by `setNode` on a text,
`insertText` and `removeText`). -/
theorem keys_replace_text {d : ODoc} {i j : Nat} {b : Blk} {t : Tx} (t' : Tx)
    (hb : d[i]? = some b) (ht : b.children[j]? = some t) (hk : t'.key = t.key) :
    (allKeys (d.take i ++
        [{ b with children := b.children.take j ++ [t'] ++ b.children.drop (j + 1) }] ++
        d.drop (i + 1))).Perm (allKeys d) ∧
      (textKeys (d.take i ++
        [{ b with children := b.children.take j ++ [t'] ++ b.children.drop (j + 1) }] ++
        d.drop (i + 1))).Perm (textKeys d) := by
  have hd := doc_decomp hb
  have hc := doc_decomp ht
  have hmapsplit : List.map Tx.key b.children =
      List.map Tx.key (b.children.take j) ++
        t.key :: List.map Tx.key (b.children.drop (j + 1)) := by
    conv_lhs => rw [hc]
    rw [List.map_append, List.map_cons]
  constructor
  · rw [List.perm_iff_count]
    intro a
    conv_rhs => rw [hd]
    simp only [allKeys, List.flatMap_append, List.flatMap_cons,
      List.flatMap_nil, List.count_append, List.count_cons, List.append_nil,
      List.map_nil, List.count_nil, List.map_append, List.map_cons]
    rw [hmapsplit, hk]
    simp only [List.count_append, List.count_cons]
    omega
  · rw [List.perm_iff_count]
    intro a
    conv_rhs => rw [hd]
    simp only [textKeys, List.flatMap_append, List.flatMap_cons,
      List.flatMap_nil, List.count_append, List.count_cons, List.append_nil,
      List.map_nil, List.count_nil, List.map_append, List.map_cons]
    rw [hmapsplit, hk]
    simp only [List.count_append, List.count_cons]
    omega

/-- `setNode` on a block touches no key. -/
theorem keys_set_block {d : ODoc} {i : Nat} {b : Blk} (pr : Nat)
    (hb : d[i]? = some b) :
    allKeys (d.take i ++ [{ b with props := pr }] ++ d.drop (i + 1)) = allKeys d ∧
      textKeys (d.take i ++ [{ b with props := pr }] ++ d.drop (i + 1)) =
        textKeys d := by
  have hd := doc_decomp hb
  constructor
  · conv_rhs => rw [hd]
    simp [allKeys]
  · conv_rhs => rw [hd]
    simp [textKeys]

/-- `mapRanges` preserves selection validity whenever the iterator sends
the old selection to a range whose keys exist in the (new) document:
the re-resolution wrapper keeps keys and offsets. -/
theorem selOk_of_mapRanges {v1 v' : OValue} {f : ORg → Option (Option ORg)}
    (hmap : mapRangesE v1 f = some v')
    (hkeys : ∀ r r', v1.selection = some r → f r = some (some r') →
      r'.anchor.key ∈ textKeys v1.doc ∧ r'.focus.key ∈ textKeys v1.doc) :
    selOk v' := by
  obtain ⟨hdoc, hsel⟩ := mapRangesE_selection hmap
  intro r hr
  rcases hsel with ⟨hn, hn'⟩ | ⟨r0, o, hr0, hfo, hv'sel⟩
  · rw [hn'] at hr
    cases hr
  · cases o with
    | none =>
      rw [hv'sel] at hr
      cases hr
    | some x =>
      simp only [Option.map_some'] at hv'sel
      rw [hv'sel] at hr
      have hx := Option.some.inj hr
      have hw := resolveWrap_key_offset v1.doc r0 x
      have hks := hkeys r0 x hr0 hfo
      rw [hdoc]
      constructor
      · rw [← hx, hw.1.1]
        exact hks.1
      · rw [← hx, hw.2.1]
        exact hks.2

/-- `value.setNode` preserves the invariant. -/
theorem valueSetNode_inv {v v' : OValue} {p : List Nat} {pr : Nat}
    (hInv : Inv v) (h : valueSetNode v p pr = some v') : Inv v' := by
  unfold valueSetNode at h
  simp only [Option.bind_eq_bind, Option.bind_eq_some, Option.some.injEq] at h
  obtain ⟨d2, hd2, hv'⟩ := h
  subst hv'
  match p, hd2 with
  | [i], hd2 =>
    simp only [docSetNode, Option.bind_eq_bind, Option.bind_eq_some,
      Option.some.injEq] at hd2
    obtain ⟨b, hb, hd2⟩ := hd2
    subst hd2
    obtain ⟨h1, h2⟩ := keys_set_block pr hb
    refine ⟨?_, ?_⟩
    · show ((allKeys _).Nodup)
      rw [h1]
      exact hInv.1
    · intro r hr
      have := hInv.2 r hr
      show _ ∈ textKeys _ ∧ _ ∈ textKeys _
      rw [h2]
      exact this
  | [i, j], hd2 =>
    simp only [docSetNode, Option.bind_eq_bind, Option.bind_eq_some,
      Option.some.injEq] at hd2
    obtain ⟨b, hb, t, ht, hd2⟩ := hd2
    subst hd2
    obtain ⟨h1, h2⟩ := keys_replace_text { t with props := pr } hb ht rfl
    refine ⟨?_, ?_⟩
    · exact (h1.nodup_iff).mpr hInv.1
    · intro r hr
      have := hInv.2 r hr
      refine ⟨h2.mem_iff.mpr this.1, h2.mem_iff.mpr this.2⟩

/-- `value.insertNode` preserves the invariant: the materialized keys
are fresh, and the selection is only path-invalidated. -/
theorem valueInsertNode_inv {v v' : OValue} {p : List Nat} {spec : NodeSpec}
    (hInv : Inv v) (h : valueInsertNode v p spec = some v') : Inv v' := by
  unfold valueInsertNode at h
  simp only [Option.bind_eq_bind, Option.bind_eq_some] at h
  obtain ⟨d2, hd2, hmap⟩ := h
  obtain ⟨hdoc, _⟩ := mapRangesE_selection hmap
  have hkeys := docInsertNode_keys hd2
  have hmat := materialize_keys_facts (freshKey v.doc) spec
  constructor
  · rw [hdoc]
    refine (hkeys.1.nodup_iff).mpr ?_
    rw [List.nodup_append]
    refine ⟨hmat.1, hInv.1, ?_⟩
    intro k hk1 hk2
    have h1 := hmat.2 k hk1
    have h2 := le_foldr_max hk2
    unfold freshKey at h1
    omega
  · refine selOk_of_mapRanges hmap ?_
    intro r r' hr hfr
    have hrr : r' = updatePts setPathNull r :=
      (Option.some.inj (Option.some.inj hfr)).symm
    subst hrr
    have hok := hInv.2 r hr
    constructor
    · show r.anchor.key ∈ textKeys d2
      exact hkeys.2.mem_iff.mpr (List.mem_append_right _ hok.1)
    · show r.focus.key ∈ textKeys d2
      exact hkeys.2.mem_iff.mpr (List.mem_append_right _ hok.2)

/-- `value.moveNode` preserves the invariant: keys are permuted and the
selection is only path-invalidated. -/
theorem valueMoveNode_inv {v v' : OValue} {p q : List Nat} {idx : Nat}
    (hInv : Inv v) (h : valueMoveNode v p q idx = some v') : Inv v' := by
  unfold valueMoveNode at h
  split_ifs at h
  · rw [(Option.some.inj h).symm]
    exact hInv
  · simp only [Option.bind_eq_bind, Option.bind_eq_some] at h
    obtain ⟨d2, hd2, hmap⟩ := h
    obtain ⟨hdoc, _⟩ := mapRangesE_selection hmap
    have hkeys := docMoveNode_keys hd2
    constructor
    · rw [hdoc]
      exact (hkeys.1.nodup_iff).mpr hInv.1
    · refine selOk_of_mapRanges hmap ?_
      intro r r' hr hfr
      have hrr : r' = updatePts setPathNull r :=
        (Option.some.inj (Option.some.inj hfr)).symm
      subst hrr
      have hok := hInv.2 r hr
      exact ⟨hkeys.2.mem_iff.mpr hok.1, hkeys.2.mem_iff.mpr hok.2⟩

/-- The `removeText` point repair never changes a point's key. -/
theorem removeTextPt_key (k off len : Nat) (p : OPt) :
    (removeTextPt k off len p).key = p.key := by
  unfold removeTextPt
  split_ifs <;> rfl

/-- `value.removeText` preserves the invariant. -/
theorem valueRemoveText_inv {v v' : OValue} {p : List Nat} {off : Nat}
    {s : List Char} (hInv : Inv v) (h : valueRemoveText v p off s = some v') :
    Inv v' := by
  unfold valueRemoveText at h
  simp only [Option.bind_eq_bind, Option.bind_eq_some] at h
  obtain ⟨node, hnode, hrest⟩ := h
  cases node with
  | block b => cases hrest
  | text t0 =>
    simp only [Option.bind_eq_bind, Option.bind_eq_some] at hrest
    obtain ⟨d2, hd2, hmap⟩ := hrest
    obtain ⟨hdoc, _⟩ := mapRangesE_selection hmap
    match p, hd2 with
    | [i, j], hd2 =>
      simp only [docRemoveText, Option.bind_eq_bind, Option.bind_eq_some,
        Option.some.injEq] at hd2
      obtain ⟨b, hb, t, ht, hd2⟩ := hd2
      subst hd2
      obtain ⟨h1, h2⟩ := keys_replace_text
        { t with text := t.text.take off ++ t.text.drop (off + s.length) } hb ht rfl
      constructor
      · rw [hdoc]
        exact (h1.nodup_iff).mpr hInv.1
      · refine selOk_of_mapRanges hmap ?_
        intro r r' hr hfr
        have hrr : r' = updatePts (removeTextPt t0.key off s.length) r :=
          (Option.some.inj (Option.some.inj hfr)).symm
        subst hrr
        have hok := hInv.2 r hr
        constructor
        · show (removeTextPt t0.key off s.length r.anchor).key ∈ textKeys _
          rw [removeTextPt_key]
          exact h2.mem_iff.mpr hok.1
        · show (removeTextPt t0.key off s.length r.focus).key ∈ textKeys _
          rw [removeTextPt_key]
          exact h2.mem_iff.mpr hok.2

/-- `value.insertText` preserves the invariant; a point with an
invalidated path makes the whole operation throw, which the caller
turns into a no-op. -/
theorem valueInsertText_inv {v v' : OValue} {p : List Nat} {off : Nat}
    {s : List Char} (hInv : Inv v) (h : valueInsertText v p off s = some v') :
    Inv v' := by
  unfold valueInsertText at h
  simp only [Option.bind_eq_bind, Option.bind_eq_some] at h
  obtain ⟨d2, hd2, hmap⟩ := h
  obtain ⟨hdoc, _⟩ := mapRangesE_selection hmap
  match p, hd2 with
  | [i, j], hd2 =>
    simp only [docInsertText, Option.bind_eq_bind, Option.bind_eq_some,
      Option.some.injEq] at hd2
    obtain ⟨b, hb, t, ht, hd2⟩ := hd2
    subst hd2
    obtain ⟨h1, h2⟩ := keys_replace_text
      { t with text := t.text.take off ++ s ++ t.text.drop off } hb ht rfl
    constructor
    · rw [hdoc]
      exact (h1.nodup_iff).mpr hInv.1
    · refine selOk_of_mapRanges hmap ?_
      intro r r' hr hfr
      have hok := hInv.2 r hr
      cases hpa : r.anchor.path with
      | none => simp [hpa] at hfr
      | some pa =>
        cases hpf : r.focus.path with
        | none => simp [hpa, hpf] at hfr
        | some pf =>
          simp only [hpa, hpf, Option.bind_eq_bind, Option.some_bind,
            Option.some.injEq] at hfr
          rw [← hfr]
          constructor
          · split_ifs <;> exact h2.mem_iff.mpr hok.1
          · split_ifs <;> exact h2.mem_iff.mpr hok.2

/-- `value.splitNode` preserves the invariant: the successor text is
looked up in the new document, and every other point keeps its key. -/
theorem valueSplitNode_inv {v v' : OValue} {p : List Nat} {pos : Nat}
    {pr : Option Nat} (hInv : Inv v) (h : valueSplitNode v p pos pr = some v') :
    Inv v' := by
  unfold valueSplitNode at h
  simp only [Option.bind_eq_bind, Option.bind_eq_some] at h
  obtain ⟨node, hnode, d2, hd2, hmap⟩ := h
  obtain ⟨hdoc, _⟩ := mapRangesE_selection hmap
  have hkeys := docSplitNode_keys hd2
  constructor
  · rw [hdoc]
    refine (hkeys.1.nodup_iff).mpr ?_
    rw [List.nodup_cons]
    exact ⟨freshKey_not_mem v.doc, hInv.1⟩
  · refine selOk_of_mapRanges hmap ?_
    intro r r' hr hfr
    have hok := hInv.2 r hr
    have holdA : r.anchor.key ∈ textKeys d2 := hkeys.2 _ hok.1
    have holdF : r.focus.key ∈ textKeys d2 := hkeys.2 _ hok.2
    cases hnx : getNextTextByKey d2 node.nkey with
    | none =>
      simp only [hnx] at hfr
      split_ifs at hfr <;> cases hfr <;> exact ⟨holdA, holdF⟩
    | some nx =>
      have hnew : nx.1.key ∈ textKeys d2 := getNextTextByKey_mem hnx
      simp only [hnx] at hfr
      have hrr := (Option.some.inj (Option.some.inj hfr)).symm
      subst hrr
      constructor
      · split_ifs <;> first | exact holdA | exact hnew
      · split_ifs <;> first | exact holdF | exact hnew

/-- `value.mergeNode` preserves the invariant: points on a merged text
move to the predecessor text's key; block merges keep every text. -/
theorem valueMergeNode_inv {v v' : OValue} {p : List Nat}
    (hInv : Inv v) (h : valueMergeNode v p = some v') : Inv v' := by
  unfold valueMergeNode at h
  simp only [Option.bind_eq_bind, Option.bind_eq_some] at h
  obtain ⟨d2, hd2, wp, hwp, one, hone, two, htwo, hmap⟩ := h
  obtain ⟨hdoc, _⟩ := mapRangesE_selection hmap
  match p, hwp, hd2, htwo with
  | [i], hwp, hd2, htwo =>
    simp only [getNodeO, Option.map_eq_some'] at htwo
    obtain ⟨b2, hb2, htwo'⟩ := htwo
    subst htwo'
    have hi : i ≠ 0 := by
      intro hc
      subst hc
      simp [decrementP] at hwp
    have hkeys := docMergeNode_block_keys hb2 hi hd2
    constructor
    · rw [hdoc]
      have hnd : (b2.key :: allKeys d2).Nodup := (hkeys.1.nodup_iff).mpr hInv.1
      exact (List.nodup_cons.mp hnd).2
    · refine selOk_of_mapRanges hmap ?_
      intro r r' hr hfr
      have hrr : r' = updatePts setPathNull r :=
        (Option.some.inj (Option.some.inj hfr)).symm
      subst hrr
      have hok := hInv.2 r hr
      exact ⟨hkeys.2.mem_iff.mpr hok.1, hkeys.2.mem_iff.mpr hok.2⟩
  | [i, j], hwp, hd2, htwo =>
    simp only [getNodeO, Option.map_eq_some'] at htwo
    obtain ⟨t2, hbt2, htwo'⟩ := htwo
    subst htwo'
    rw [Option.bind_eq_some] at hbt2
    obtain ⟨b, hb, ht2⟩ := hbt2
    have hj : j ≠ 0 := by
      intro hc
      subst hc
      simp [decrementP] at hwp
    have hwp' : wp = [i, j - 1] := by
      simp only [decrementP, if_neg hj, Option.some.injEq] at hwp
      exact hwp.symm
    subst hwp'
    simp only [getNodeO, Option.map_eq_some'] at hone
    obtain ⟨t1, hbt1, hone'⟩ := hone
    subst hone'
    rw [Option.bind_eq_some] at hbt1
    obtain ⟨b', hb', ht1⟩ := hbt1
    rw [hb] at hb'
    rw [← Option.some.inj hb'] at ht1
    have hkeys := docMergeNode_text_keys hb ht1 ht2 hj hd2
    constructor
    · rw [hdoc]
      have hnd : (t2.key :: allKeys d2).Nodup := (hkeys.1.nodup_iff).mpr hInv.1
      exact (List.nodup_cons.mp hnd).2
    · refine selOk_of_mapRanges hmap ?_
      intro r r' hr hfr
      have hok := hInv.2 r hr
      by_cases hA : r.anchor.key = t2.key <;> by_cases hF : r.focus.key = t2.key <;>
        simp [hA, hF] at hfr <;> subst hfr
      · exact ⟨hkeys.2.2, hkeys.2.2⟩
      · refine ⟨hkeys.2.2, ?_⟩
        rcases List.mem_cons.mp ((hkeys.2.1.mem_iff).mpr hok.2) with he | hm
        · exact absurd he hF
        · exact hm
      · refine ⟨?_, hkeys.2.2⟩
        rcases List.mem_cons.mp ((hkeys.2.1.mem_iff).mpr hok.1) with he | hm
        · exact absurd he hA
        · exact hm
      · constructor
        · rcases List.mem_cons.mp ((hkeys.2.1.mem_iff).mpr hok.1) with he | hm
          · exact absurd he hA
          · exact hm
        · rcases List.mem_cons.mp ((hkeys.2.1.mem_iff).mpr hok.2) with he | hm
          · exact absurd he hF
          · exact hm

/-- `value.removeNode` preserves the invariant: points inside the
removed subtree move to a surviving neighbour text or the selection is
unset; points outside keep keys that survive the removal. -/
theorem valueRemoveNode_inv {v v' : OValue} {p : List Nat}
    (hInv : Inv v) (h : valueRemoveNode v p = some v') : Inv v' := by
  unfold valueRemoveNode at h
  simp only [Option.bind_eq_bind, Option.bind_eq_some] at h
  obtain ⟨node, hnode, d2, hd2, hmap⟩ := h
  obtain ⟨hdoc, _⟩ := mapRangesE_selection hmap
  have hkeys := docRemoveNode_node_keys hnode hd2
  constructor
  · rw [hdoc]
    have hnd : (node.keys ++ allKeys d2).Nodup := (hkeys.1.nodup_iff).mp hInv.1
    exact ((List.nodup_append).mp hnd).2.1
  · refine selOk_of_mapRanges hmap ?_
    intro r r' hr hfr
    have hok := hInv.2 r hr
    cases hprev : getPrevTextByKey v.doc (firstTextKey node) with
    | some pv =>
      have hsurv := removeNode_prev_survives hInv.1 hnode hprev hd2
      simp only [hprev] at hfr
      cases hA : hasNodeKey node r.anchor.key <;>
        cases hF : hasNodeKey node r.focus.key <;>
        simp [hA, hF] at hfr <;> subst hfr
      · exact ⟨textKeys_removeNode_outside hnode hd2 hok.1 hA,
          textKeys_removeNode_outside hnode hd2 hok.2 hF⟩
      · exact ⟨textKeys_removeNode_outside hnode hd2 hok.1 hA, hsurv⟩
      · exact ⟨hsurv, textKeys_removeNode_outside hnode hd2 hok.2 hF⟩
      · exact ⟨hsurv, hsurv⟩
    | none =>
      cases hnext : getNextTextByKey v.doc (lastTextKey node) with
      | some nx =>
        have hsurv := removeNode_next_survives hInv.1 hnode hnext hd2
        simp only [hprev, hnext] at hfr
        cases hA : hasNodeKey node r.anchor.key <;>
          cases hF : hasNodeKey node r.focus.key <;>
          simp [hA, hF] at hfr <;> subst hfr
        · exact ⟨textKeys_removeNode_outside hnode hd2 hok.1 hA,
            textKeys_removeNode_outside hnode hd2 hok.2 hF⟩
        · exact ⟨textKeys_removeNode_outside hnode hd2 hok.1 hA, hsurv⟩
        · exact ⟨hsurv, textKeys_removeNode_outside hnode hd2 hok.2 hF⟩
        · exact ⟨hsurv, hsurv⟩
      | none =>
        simp only [hprev, hnext] at hfr
        cases hA : hasNodeKey node r.anchor.key <;>
          cases hF : hasNodeKey node r.focus.key <;>
          simp [hA, hF] at hfr
        subst hfr
        exact ⟨textKeys_removeNode_outside hnode hd2 hok.1 hA,
          textKeys_removeNode_outside hnode hd2 hok.2 hF⟩

/-- Every engine operation preserves the invariant (a thrown operation
leaves the value unchanged). -/
theorem applyOp_inv {v : OValue} (op : Op) (hInv : Inv v) : Inv (applyOp v op) := by
  cases op with
  | splitN p pos pr =>
    show Inv ((valueSplitNode v p pos pr).getD v)
    cases h : valueSplitNode v p pos pr with
    | none => exact hInv
    | some v' => exact valueSplitNode_inv hInv h
  | mergeN p =>
    show Inv ((valueMergeNode v p).getD v)
    cases h : valueMergeNode v p with
    | none => exact hInv
    | some v' => exact valueMergeNode_inv hInv h
  | insertN p spec =>
    show Inv ((valueInsertNode v p spec).getD v)
    cases h : valueInsertNode v p spec with
    | none => exact hInv
    | some v' => exact valueInsertNode_inv hInv h
  | removeN p =>
    show Inv ((valueRemoveNode v p).getD v)
    cases h : valueRemoveNode v p with
    | none => exact hInv
    | some v' => exact valueRemoveNode_inv hInv h
  | moveN p q i =>
    show Inv ((valueMoveNode v p q i).getD v)
    cases h : valueMoveNode v p q i with
    | none => exact hInv
    | some v' => exact valueMoveNode_inv hInv h
  | setN p pr =>
    show Inv ((valueSetNode v p pr).getD v)
    cases h : valueSetNode v p pr with
    | none => exact hInv
    | some v' => exact valueSetNode_inv hInv h
  | insertT p off str =>
    show Inv ((valueInsertText v p off str).getD v)
    cases h : valueInsertText v p off str with
    | none => exact hInv
    | some v' => exact valueInsertText_inv hInv h
  | removeT p off str =>
    show Inv ((valueRemoveText v p off str).getD v)
    cases h : valueRemoveText v p off str with
    | none => exact hInv
    | some v' => exact valueRemoveText_inv hInv h

/-- Every finite operation sequence preserves the invariant. -/
theorem applyOps_inv {v : OValue} (ops : List Op) (hInv : Inv v) :
    Inv (applyOps v ops) := by
  induction ops generalizing v with
  | nil => exact hInv
  | cons op rest ih => exact ih (applyOp_inv op hInv)

/-- C4: for every document with unique keys, an initial non-unset
selection referring to existing texts, and every finite sequence of
engine operations (splitNode, mergeNode, insertNode, removeNode,
moveNode, setNode, insertText, removeText), the resulting selection
either is explicitly unset or refers to text nodes existing in the
resulting tree — it is never left dangling on a deleted node. -/
theorem selection_never_dangles
    {v : OValue} {r0 : ORg} (ops : List Op)
    (hn : (allKeys v.doc).Nodup)
    (hsel0 : v.selection = some r0)
    (hok : r0.anchor.key ∈ textKeys v.doc ∧ r0.focus.key ∈ textKeys v.doc) :
    (applyOps v ops).selection = none ∨
      ∃ r, (applyOps v ops).selection = some r ∧
        r.anchor.key ∈ textKeys (applyOps v ops).doc ∧
        r.focus.key ∈ textKeys (applyOps v ops).doc := by
  have hInv : Inv v := by
    refine ⟨hn, ?_⟩
    intro r hr
    rw [hsel0] at hr
    rw [← Option.some.inj hr]
    exact hok
  have h2 := applyOps_inv ops hInv
  cases hsel : (applyOps v ops).selection with
  | none => exact Or.inl rfl
  | some r => exact Or.inr ⟨r, rfl, h2.2 r hsel⟩

/-- Witness for C4: removing the only block of a concrete document
unsets the selection, leaving nothing dangling. -/
theorem selection_never_dangles_witness :
    (applyOps wVal [.removeN [0]]).selection = none ∨
      ∃ r, (applyOps wVal [.removeN [0]]).selection = some r ∧
        r.anchor.key ∈ textKeys (applyOps wVal [.removeN [0]]).doc ∧
        r.focus.key ∈ textKeys (applyOps wVal [.removeN [0]]).doc :=
  @selection_never_dangles wVal ⟨⟨1, some [0, 0], 5⟩, ⟨1, some [0, 0], 2⟩⟩
    [.removeN [0]] (by decide) (by decide) (by decide)

end Slate
